import Mathlib

set_option maxRecDepth 8000

/-!
Verification of the MCTS decision engine in
`TCG_project3/global_early_exit_heuristic_opening_tournament/agent.h`
(class `player`, nested class `player::node`, the `ParallelAverageSelection`
variant of `player::take_action`).

The game-rule capability (`board.h` / `action.h`) is not part of the core
source; following the specification it is treated as an external `GameState`
capability and is abstracted by three parameters:
  * `S`      — the type of board snapshots;
  * `turn`   — `who_take_turns` of a snapshot;
  * `place`  — `board::place pos`: `some s'` when the move is legal
               (yielding the successor snapshot), `none` when illegal.
The pseudo random engine (`std::default_random_engine`) is abstracted by a
state type `R` together with `all_space : R → List Nat × R`, producing the
shuffled candidate list produced by `node::all_space` and the advanced
engine state.
-/

namespace MCTSAgent

/-- The two piece colours that can be to move (`board::black` / `board::white`). -/
inductive Player where
  | black
  | white
  deriving DecidableEq, Repr

/-- The opponent of a player. -/
def Player.opp : Player → Player
  | .black => .white
  | .white => .black

@[simp] theorem Player.opp_black : Player.opp .black = .white := rfl
@[simp] theorem Player.opp_white : Player.opp .white = .black := rfl

theorem Player.opp_ne (p : Player) : p.opp ≠ p := by cases p <;> simp [Player.opp]

/-- Search-tree node (`player::node`): a board snapshot together with
`place_pos`, `win_cnt`, `total_cnt` and the children map
(`std::unordered_map<int, node*>`, embedded as an association list). -/
inductive GTree (S : Type) : Type where
  | mk (state : S) (placePos : Int) (winCnt : Int) (totalCnt : Nat)
      (children : List (Nat × GTree S))

namespace GTree

variable {S : Type}

/-- The board snapshot stored in the node. -/
def state : GTree S → S
  | .mk s _ _ _ _ => s

/-- Accessor for `node::place_pos`. -/
def placePos : GTree S → Int
  | .mk _ p _ _ _ => p

/-- Accessor for `node::win_cnt`. -/
def winCnt : GTree S → Int
  | .mk _ _ w _ _ => w

/-- Accessor for `node::total_cnt`. -/
def totalCnt : GTree S → Nat
  | .mk _ _ _ n _ => n

/-- Accessor for `node::child`. -/
def children : GTree S → List (Nat × GTree S)
  | .mk _ _ _ _ l => l

@[simp] theorem state_mk (s : S) (p w n l) : state (GTree.mk s p w n l) = s := rfl
@[simp] theorem placePos_mk (s : S) (p w n l) : placePos (GTree.mk s p w n l) = p := rfl
@[simp] theorem winCnt_mk (s : S) (p w n l) : winCnt (GTree.mk s p w n l) = w := rfl
@[simp] theorem totalCnt_mk (s : S) (p w n l) : totalCnt (GTree.mk s p w n l) = n := rfl
@[simp] theorem children_mk (s : S) (p w n l) : children (GTree.mk s p w n l) = l := rfl

/-- A fresh node, as built by the constructor `node(state, m)`:
zero counters, no children. -/
def fresh (s : S) (m : Int) : GTree S := GTree.mk s m 0 0 []

@[simp] theorem state_fresh (s : S) (m : Int) : state (fresh s m) = s := rfl
@[simp] theorem totalCnt_fresh (s : S) (m : Int) : totalCnt (fresh s m) = 0 := rfl
@[simp] theorem children_fresh (s : S) (m : Int) : children (fresh s m) = [] := rfl

end GTree

/-- Lookup in the children association list (`child.count` / `child[...]`). -/
def lookupChild {S : Type} (k : Nat) : List (Nat × GTree S) → Option (GTree S)
  | [] => none
  | (k', c) :: rest => if k' = k then some c else lookupChild k rest

/-- Replace the subtree stored under key `k` (first occurrence) by `f`
applied to it; other entries are unchanged. -/
def updChild {S : Type} (k : Nat) (f : GTree S → GTree S) :
    List (Nat × GTree S) → List (Nat × GTree S)
  | [] => []
  | (k', c) :: rest =>
      if k' = k then (k', f c) :: rest else (k', c) :: updChild k f rest

/-- Total visit count of a children list. -/
def childSum {S : Type} (l : List (Nat × GTree S)) : Nat :=
  (l.map (fun kc => kc.2.totalCnt)).sum

@[simp] theorem childSum_nil {S : Type} : childSum ([] : List (Nat × GTree S)) = 0 := rfl

@[simp] theorem childSum_cons {S : Type} (kc : Nat × GTree S) (l : List (Nat × GTree S)) :
    childSum (kc :: l) = kc.2.totalCnt + childSum l := rfl

theorem lookupChild_mem {S : Type} {k : Nat} {l : List (Nat × GTree S)} {c : GTree S}
    (h : lookupChild k l = some c) : (k, c) ∈ l := by
  induction l with
  | nil => simp [lookupChild] at h
  | cons kc rest ih =>
      obtain ⟨k', c'⟩ := kc
      by_cases hk : k' = k
      · subst hk
        simp [lookupChild] at h
        simp [h]
      · simp [lookupChild, hk] at h
        exact List.mem_cons_of_mem _ (ih h)

theorem updChild_keys {S : Type} (k : Nat) (f : GTree S → GTree S)
    (l : List (Nat × GTree S)) : (updChild k f l).map Prod.fst = l.map Prod.fst := by
  induction l with
  | nil => rfl
  | cons kc rest ih =>
      obtain ⟨k', c'⟩ := kc
      by_cases hk : k' = k <;> simp [updChild, hk, ih]

theorem updChild_sum {S : Type} {k : Nat} {l : List (Nat × GTree S)} {c : GTree S}
    (f : GTree S → GTree S) (h : lookupChild k l = some c) :
    childSum (updChild k f l) + c.totalCnt = childSum l + (f c).totalCnt := by
  induction l with
  | nil => simp [lookupChild] at h
  | cons kc rest ih =>
      obtain ⟨k', c'⟩ := kc
      by_cases hk : k' = k
      · subst hk
        simp [lookupChild] at h
        subst h
        simp [updChild]
        omega
      · simp [lookupChild, hk] at h
        simp [updChild, hk]
        have := ih h
        omega

theorem updChild_lookup_self {S : Type} {k : Nat} {l : List (Nat × GTree S)} {c : GTree S}
    (f : GTree S → GTree S) (h : lookupChild k l = some c) :
    lookupChild k (updChild k f l) = some (f c) := by
  induction l with
  | nil => simp [lookupChild] at h
  | cons kc rest ih =>
      obtain ⟨k', c'⟩ := kc
      by_cases hk : k' = k
      · subst hk
        simp [lookupChild] at h
        subst h
        simp [updChild, lookupChild]
      · simp [lookupChild, hk] at h
        simp [updChild, lookupChild, hk, ih h]

theorem updChild_mem {S : Type} {k : Nat} {l : List (Nat × GTree S)}
    (f : GTree S → GTree S) {kc : Nat × GTree S} (h : kc ∈ updChild k f l) :
    kc ∈ l ∨ ∃ c, lookupChild k l = some c ∧ kc = (k, f c) := by
  induction l with
  | nil => simp [updChild] at h
  | cons kc' rest ih =>
      obtain ⟨k', c'⟩ := kc'
      by_cases hk : k' = k
      · subst hk
        simp [updChild] at h
        rcases h with h | h
        · right
          exact ⟨c', by simp [lookupChild], h⟩
        · left
          exact List.mem_cons_of_mem _ h
      · simp [updChild, hk] at h
        rcases h with h | h
        · left
          simp [h]
        · rcases ih h with h' | ⟨c, hc, hkc⟩
          · exact Or.inl (List.mem_cons_of_mem _ h')
          · exact Or.inr ⟨c, by simp [lookupChild, hk, hc], hkc⟩

/-- Embeds `node::win_rate`: `win_cnt / total_cnt`, and `0` when `total_cnt == 0`.
The C++ `float` arithmetic is embedded in `ℝ`. -/
noncomputable def win_rate (w : Int) (n : Nat) : ℝ :=
  if n = 0 then 0 else (w : ℝ) / (n : ℝ)

/-- Embeds `node::ucb`: the parent pointer is embedded by passing the parent's
`total_cnt` explicitly.  When `parent->total_cnt == 0 || total_cnt == 0`
the score degrades to `win_rate`; otherwise it is
`win_rate + c * sqrt(log(parent->total_cnt) / total_cnt)`. -/
noncomputable def ucb (parentTotal : Nat) (w : Int) (n : Nat) (c : ℝ) : ℝ :=
  if parentTotal = 0 ∨ n = 0 then win_rate w n
  else win_rate w n + c * Real.sqrt (Real.log (parentTotal : ℝ) / (n : ℝ))

variable {S R : Type}

/-- Number of legal placements from a snapshot (the counting loop in
`node::is_leaf`, testing `board(*this).place(i)` for `i = 0..80`). -/
def countLegal (place : S → Nat → Option S) (s : S) : Nat :=
  ((List.range 81).filter (fun i => (place s i).isSome)).length

/-- Embeds `node::is_leaf`: a node is a leaf unless it has at least one legal move
and is fully expanded (`cnt > 0 && child.size() == cnt`). -/
def is_leaf (place : S → Nat → Option S) (t : GTree S) : Bool :=
  !(decide (0 < countLegal place t.state) && decide (t.children.length = countLegal place t.state))

/-- The running-argmax loop of `node::select_root_to_leaf`, after the first
child has been taken as the initial best (the C++ code initialises
`max_score = -FLT_MAX`, so the first child always replaces it; every UCB
score is finite and far above `-FLT_MAX`).  Strictly greater scores
replace the current best, matching `tmp > max_score`. -/
noncomputable def bestChildAux (c : ℝ) (parentTotal : Nat) :
    Nat × GTree S → List (Nat × GTree S) → Nat × GTree S
  | b, [] => b
  | b, kc :: rest =>
      bestChildAux c parentTotal
        (if ucb parentTotal kc.2.winCnt kc.2.totalCnt c >
            ucb parentTotal b.2.winCnt b.2.totalCnt c then kc else b) rest

/-- The child of highest UCB score (`none` for an empty children map). -/
noncomputable def bestChild (c : ℝ) (parentTotal : Nat) :
    List (Nat × GTree S) → Option (Nat × GTree S)
  | [] => none
  | kc :: rest => some (bestChildAux c parentTotal kc rest)

theorem bestChildAux_mem (c : ℝ) (parentTotal : Nat) (b : Nat × GTree S)
    (l : List (Nat × GTree S)) : bestChildAux c parentTotal b l = b ∨
    bestChildAux c parentTotal b l ∈ l := by
  induction l generalizing b with
  | nil => left; rfl
  | cons kc rest ih =>
      simp only [bestChildAux]
      rcases ih (if ucb parentTotal kc.2.winCnt kc.2.totalCnt c >
          ucb parentTotal b.2.winCnt b.2.totalCnt c then kc else b) with h' | h'
      · rw [h']
        by_cases h : ucb parentTotal kc.2.winCnt kc.2.totalCnt c >
            ucb parentTotal b.2.winCnt b.2.totalCnt c
        · right; simp [h]
        · left; simp [h]
      · right
        exact List.mem_cons_of_mem _ h'

theorem bestChild_mem {c : ℝ} {parentTotal : Nat} {l : List (Nat × GTree S)}
    {kc : Nat × GTree S} (h : bestChild c parentTotal l = some kc) : kc ∈ l := by
  cases l with
  | nil => simp [bestChild] at h
  | cons kc0 rest =>
      simp [bestChild] at h
      rcases bestChildAux_mem c parentTotal kc0 rest with h' | h'
      · rw [h] at h'
        simp [h']
      · rw [h] at h'
        exact List.mem_cons_of_mem _ h'

theorem child_sizeOf_lt {kc : Nat × GTree S} {t : GTree S}
    (h : kc ∈ t.children) : sizeOf kc.2 < sizeOf t := by
  cases t with
  | mk s p w n l =>
      have h1 : sizeOf kc < sizeOf l := List.sizeOf_lt_of_mem h
      obtain ⟨k, c⟩ := kc
      simp at h1 ⊢
      omega

/-- Embeds `node::select_root_to_leaf`: starting at the node, while it is not a
leaf, descend to the child of highest UCB score (breaking out if the
children map is empty).  The C++ code returns the vector of visited node
pointers with the root in front; here the path is returned as the list of
child keys followed from the root, the root itself being implicit. -/
noncomputable def select_root_to_leaf (place : S → Nat → Option S) (c : ℝ)
    (t : GTree S) : List Nat :=
  if is_leaf place t then []
  else
    match h : bestChild c t.totalCnt t.children with
    | none => []
    | some kc => kc.1 :: select_root_to_leaf place c kc.2
termination_by sizeOf t
decreasing_by exact child_sizeOf_lt (bestChild_mem h)

/-- The scanning loop of `node::expand_from_leaf`: find the first position
in the shuffled order that is a legal placement and not already a child;
return it together with the successor snapshot. -/
def expandScan (place : S → Nat → Option S) (s : S) (l : List (Nat × GTree S)) :
    List Nat → Option (Nat × S)
  | [] => none
  | p :: rest =>
      match place s p with
      | some s' => if (lookupChild p l).isNone then some (p, s') else expandScan place s l rest
      | none => expandScan place s l rest

/-- Embeds `node::expand_from_leaf`: on success a fresh child node is inserted in
the children map under the found position and returned (`some p`); when
nothing can be placed the node is returned unchanged (`none`). -/
def expand_from_leaf (place : S → Nat → Option S) (t : GTree S) (order : List Nat) :
    GTree S × Option Nat :=
  match expandScan place t.state t.children order with
  | none => (t, none)
  | some (p, s') =>
      (GTree.mk t.state t.placePos t.winCnt t.totalCnt
        (t.children ++ [(p, GTree.fresh s' p)]), some p)

/-- Expansion applied at the end of the selected path: navigate along the
path keys and run `expand_from_leaf` at the final node; the returned list
is the (possibly extended) path, mirroring `path.push_back(expand_node)`
in `node::MCTS`. -/
def expandAlong (place : S → Nat → Option S) :
    GTree S → List Nat → List Nat → GTree S × List Nat
  | t, [], order =>
      match expand_from_leaf place t order with
      | (t', none) => (t', [])
      | (t', some p) => (t', [p])
  | t, k :: rest, order =>
      match lookupChild k t.children with
      | none => (t, k :: rest)
      | some ch =>
          let e := expandAlong place ch rest order
          (GTree.mk t.state t.placePos t.winCnt t.totalCnt
            (updChild k (fun _ => e.1) t.children), k :: e.2)

/-- Node of the tree reached by following a list of child keys. -/
def followPath : GTree S → List Nat → Option (GTree S)
  | t, [] => some t
  | t, k :: ks =>
      match lookupChild k t.children with
      | none => none
      | some ch => followPath ch ks

/-- Snapshot stored at the end of a path (the node itself when the path
is broken; unreachable for the paths produced by selection/expansion). -/
def stateAtD (t : GTree S) (ks : List Nat) : S :=
  ((followPath t ks).getD t).state

/-- The rollout loop of `node::simulate_winner`: a queue of candidate
positions is scanned; an illegal position is pushed to the back and a pass
counter `cnt` is incremented, a legal position is played (and dropped) and
`cnt` is reset to `0`.  The C++ loop guard is `cnt != q.size()`;
`cnt ≤ q.size()` holds on every reachable state (the counter is reset on
success and incremented at most up to the queue length on failures), so
exiting on `q.length ≤ cnt` is the same condition.  The second component
counts the executed loop iterations. -/
def rollout (place : S → Nat → Option S) (b : S) (q : List Nat) (cnt : Nat) : S × Nat :=
  if h : q.length ≤ cnt then (b, 0)
  else
    match q with
    | [] => (b, 0)
    | i :: rest =>
        match place b i with
        | none =>
            let s := rollout place b (rest ++ [i]) (cnt + 1)
            (s.1, s.2 + 1)
        | some b' =>
            let s := rollout place b' rest 0
            (s.1, s.2 + 1)
termination_by (q.length, q.length - cnt)
decreasing_by
· simp at h ⊢
  omega
· simp at h ⊢
  omega

/-- Embeds `node::simulate_winner`: run the rollout from the snapshot over the
shuffled candidate queue; the player to move at the terminal position is
the loser, so the opponent is returned
(`who_take_turns == white ? black : white`). -/
def simulate_winner (turn : S → Player) (place : S → Nat → Option S)
    (b : S) (order : List Nat) : Player :=
  Player.opp (turn (rollout place b order 0).1)

/-- Embeds `node::back_propagate`: every node on the path has `total_cnt`
incremented; `win_cnt` is incremented when the simulated winner differs
from `who_take_turns` of the node's own board and decremented otherwise. -/
def back_propagate (turn : S → Player) (winner : Player) :
    List Nat → GTree S → GTree S
  | [], t =>
      GTree.mk t.state t.placePos
        (t.winCnt + if winner ≠ turn t.state then 1 else -1) (t.totalCnt + 1) t.children
  | k :: ks, t =>
      GTree.mk t.state t.placePos
        (t.winCnt + if winner ≠ turn t.state then 1 else -1) (t.totalCnt + 1)
        (updChild k (back_propagate turn winner ks) t.children)

/-- One iteration of the loop in `node::MCTS`:
select, expand, simulate, backpropagate.  The shared random engine state is
threaded through the two `all_space` draws (expansion and simulation). -/
noncomputable def mcts_cycle (turn : S → Player) (place : S → Nat → Option S)
    (all_space : R → List Nat × R) (c : ℝ) (t : GTree S) (r : R) : GTree S × R :=
  let ks := select_root_to_leaf place c t
  let o1 := all_space r
  let e := expandAlong place t ks o1.1
  let o2 := all_space o1.2
  let winner := simulate_winner turn place (stateAtD e.1 e.2) o2.1
  (back_propagate turn winner e.2 e.1, o2.2)

/-- The iteration loop of `node::MCTS` (`for i in 0..N`), returning the
updated tree and engine state. -/
noncomputable def MCTS (turn : S → Player) (place : S → Nat → Option S)
    (all_space : R → List Nat × R) (c : ℝ) : Nat → GTree S → R → GTree S × R
  | 0, t, r => (t, r)
  | n + 1, t, r =>
      let s := mcts_cycle turn place all_space c t r
      MCTS turn place all_space c n s.1 s.2

/-- The running-argmax loop of `node::select_action` (highest
`total_cnt`; `max_visit` starts at `-INT_MAX`, so the first child always
becomes the initial best). -/
def bestVisitAux : Nat × GTree S → List (Nat × GTree S) → Nat × GTree S
  | b, [] => b
  | b, kc :: rest => bestVisitAux (if kc.2.totalCnt > b.2.totalCnt then kc else b) rest

/-- Embeds `node::select_action`: `-1` for a childless node, otherwise the
`place_pos` of the child with the highest visit count. -/
def select_action (t : GTree S) : Int :=
  match t.children with
  | [] => -1
  | kc :: rest => (bestVisitAux kc rest).2.placePos

/-! ### Coordinator: the `ParallelAverageSelection` variant of `player::take_action`

The OpenMP parallel regions share the single `engine` member of
`random_agent` between all workers; the embedding sequentialises the
region in worker-id order, threading that one engine state from each
worker to the next (one valid interleaving of the shared accesses). -/

/-- The `max1`/`max2` scan of the early-exit test: both running maxima
start at `-std::numeric_limits<int>::max()`. -/
def intSentinel : Int := -(2 ^ 31 - 1)

/-- One step of the scan: `tmp > max1` shifts `max1` down into `max2`;
otherwise `tmp > max2` replaces `max2`. -/
def twoLargestStep (m : Int × Int) (x : Int) : Int × Int :=
  if x > m.1 then (x, m.1) else if x > m.2 then (m.1, x) else m

/-- The two largest entries of the aggregate vector as computed by the
scan in `player::take_action`. -/
def twoLargest (l : List Int) : Int × Int :=
  l.foldl twoLargestStep (intSentinel, intSentinel)

/-- The early-exit test: with `f = 0.5`, stop when
`max2 + f * remaining < max1`.  The C++ `float` comparison is embedded
exactly in `ℚ`. -/
def earlyExit (l : List Int) (remaining : Int) : Bool :=
  let m := twoLargest l
  decide ((m.2 : ℚ) + (1 / 2 : ℚ) * (remaining : ℚ) < (m.1 : ℚ))

/-- Embeds `N * thread_num - ((i * N / split) * thread_num)` — the argument of the
weighting factor at checkpoint `i` (all C++ `int` arithmetic; the division
is C++ integer division of nonnegative ints, i.e. `Nat` division). -/
def remainingAt (N W split i : Nat) : Int :=
  ((N * W : Nat) : Int) - ((i * N / split * W : Nat) : Int)

/-- Joint state of the coordinator: the per-worker trees (`root_vec`), the
per-worker visit vectors (`average_selection`, a row per worker), and the
shared random engine state. -/
structure TAState (S R : Type) where
  trees : List (GTree S)
  vecs : List (Nat → Nat)
  rng : R

/-- The visit vector a worker writes at a checkpoint:
`average_selection[id][pos] = child[pos]->total_cnt` for every child of its
root, all other entries (never written) are `0`. -/
def childVisits (t : GTree S) : Nat → Nat :=
  fun pos =>
    match lookupChild pos t.children with
    | some ch => ch.totalCnt
    | none => 0

/-- A parallel region in which every worker runs `n` MCTS iterations on its
own tree, sequentialised in worker order with the single shared engine
state threaded through. -/
noncomputable def runRegion (turn : S → Player) (place : S → Nat → Option S)
    (all_space : R → List Nat × R) (c : ℝ) (n : Nat) :
    List (GTree S) → R → List (GTree S) × R
  | [], r => ([], r)
  | t :: ts, r =>
      let s := MCTS turn place all_space c n t r
      let rest := runRegion turn place all_space c n ts s.2
      (s.1 :: rest.1, rest.2)

/-- The engine state each worker observes on entry of a sequentialised
parallel region (observer for the shared-engine threading of
`runRegion`). -/
noncomputable def workerEntryRngs (turn : S → Player) (place : S → Nat → Option S)
    (all_space : R → List Nat × R) (c : ℝ) (n : Nat) :
    List (GTree S) → R → List R
  | [], _ => []
  | t :: ts, r =>
      r :: workerEntryRngs turn place all_space c n ts
        (MCTS turn place all_space c n t r).2

/-- Aggregate visit count of one position over all workers
(`result[j] = Σ_i average_selection[i][j]`). -/
def aggregateAt (vecs : List (Nat → Nat)) (pos : Nat) : Nat :=
  (vecs.map (fun v => v pos)).sum

/-- The aggregate vector over the 81 board positions. -/
def resultVec (vecs : List (Nat → Nat)) : List Int :=
  (List.range 81).map (fun pos => (aggregateAt vecs pos : Int))

/-- One checkpoint-loop body plus the loop control
(`for i = split/4 + 1; i <= split`): every worker runs `N / split` more
iterations and republishes its visit vector; then the aggregate is formed
and the early-exit test decides whether to `break`. -/
noncomputable def checkpointRun (turn : S → Player) (place : S → Nat → Option S)
    (all_space : R → List Nat × R) (c : ℝ) (N W split : Nat) :
    List Nat → TAState S R → TAState S R
  | [], st => st
  | i :: is, st =>
      let s := runRegion turn place all_space c (N / split) st.trees st.rng
      let st' : TAState S R := ⟨s.1, s.1.map childVisits, s.2⟩
      if earlyExit (resultVec st'.vecs) (remainingAt N W split i) then st'
      else checkpointRun turn place all_space c N W split is st'

/-- Embeds `std::max_element` over the aggregate vector: the first index holding
the maximum value (later elements replace the best only when strictly
greater). -/
def maxElemAux : Nat × Int → List (Nat × Int) → Nat × Int
  | b, [] => b
  | b, iv :: rest => maxElemAux (if iv.2 > b.2 then iv else b) rest

/-- The final move choice from the aggregate vector: `none` (the empty
`action()`) when the maximum aggregate count is `0`, otherwise the first
position attaining the maximum. -/
def pickMove (l : List Int) : Option Nat :=
  match l with
  | [] => none
  | x :: _ =>
      let b := maxElemAux (0, x) l.enum
      if b.2 = 0 then none else some b.1

/-- The initial coordinator state: `W` fresh roots (`new node(state)`),
all visit vectors zero, the engine in its initial state. -/
def taInit (s0 : S) (W : Nat) (r0 : R) : TAState S R :=
  ⟨List.replicate W (GTree.fresh s0 (-1)), List.replicate W (fun _ => 0), r0⟩

/-- The first parallel pass: every worker runs `N / 4` iterations; the
visit vectors are not yet published (that code is commented out). -/
noncomputable def taFirst (turn : S → Player) (place : S → Nat → Option S)
    (all_space : R → List Nat × R) (c : ℝ) (N : Nat) (st : TAState S R) :
    TAState S R :=
  let s := runRegion turn place all_space c (N / 4) st.trees st.rng
  ⟨s.1, st.vecs, s.2⟩

/-- The checkpoint indices `split/4 + 1 .. split` with `split = N / 1000`. -/
def taCheckpoints (N : Nat) : List Nat :=
  List.range' (N / 1000 / 4 + 1) (N / 1000 - N / 1000 / 4)

/-- The `ParallelAverageSelection` variant of `player::take_action` for a
pool of `W` workers: `N = 0` skips the search entirely and returns the
empty action; otherwise every worker first runs `N / 4` iterations (their
visit vectors are not yet published), then the checkpoint loop runs for
`i = split/4 + 1 .. split` with `split = N / 1000`, and the move with the
highest aggregate visit count is returned (`none` when that maximum is
`0`).  The final coordinator state is returned alongside the decision. -/
noncomputable def take_action (turn : S → Player) (place : S → Nat → Option S)
    (all_space : R → List Nat × R) (c : ℝ) (N W : Nat) (s0 : S) (r0 : R) :
    TAState S R × Option Nat :=
  if N = 0 then (taInit s0 W r0, none)
  else
    let st2 := checkpointRun turn place all_space c N W (N / 1000) (taCheckpoints N)
      (taFirst turn place all_space c N (taInit s0 W r0))
    (st2, pickMove (resultVec st2.vecs))

/-! ### Facts about the `max1`/`max2` scan -/

theorem cons_rotR (a b c : Int) (s : Multiset Int) :
    a ::ₘ b ::ₘ c ::ₘ s = c ::ₘ a ::ₘ b ::ₘ s := by
  rw [Multiset.cons_swap b c, Multiset.cons_swap a c]

theorem cons_rotL (a b c : Int) (s : Multiset Int) :
    a ::ₘ b ::ₘ c ::ₘ s = b ::ₘ c ::ₘ a ::ₘ s := by
  rw [Multiset.cons_swap a b, Multiset.cons_swap a c]

theorem twoLargest_aux (l : List Int) :
    ∀ a1 a2 : Int, a2 ≤ a1 →
      (l.foldl twoLargestStep (a1, a2)).2 ≤ (l.foldl twoLargestStep (a1, a2)).1 ∧
      a1 ≤ (l.foldl twoLargestStep (a1, a2)).1 ∧
      a2 ≤ (l.foldl twoLargestStep (a1, a2)).2 ∧
      ∃ rest : Multiset Int,
        a1 ::ₘ a2 ::ₘ (l : Multiset Int) =
          (l.foldl twoLargestStep (a1, a2)).1 ::ₘ
            (l.foldl twoLargestStep (a1, a2)).2 ::ₘ rest ∧
        ∀ x ∈ rest, x ≤ (l.foldl twoLargestStep (a1, a2)).2 := by
  induction l with
  | nil =>
      intro a1 a2 h
      exact ⟨h, le_refl _, le_refl _, 0, by simp, by simp⟩
  | cons x l ih =>
      intro a1 a2 h
      have hcoe : (↑(x :: l) : Multiset Int) = x ::ₘ (l : Multiset Int) := rfl
      by_cases h1 : x > a1
      · have hs : twoLargestStep (a1, a2) x = (x, a1) := by
          simp [twoLargestStep, h1]
        rw [List.foldl_cons, hs]
        obtain ⟨hm, hb1, hb2, rest, heq, hbound⟩ := ih x a1 (le_of_lt h1)
        refine ⟨hm, le_trans (le_of_lt h1) hb1, le_trans h hb2, a2 ::ₘ rest, ?_, ?_⟩
        · calc a1 ::ₘ a2 ::ₘ (↑(x :: l) : Multiset Int)
              = a1 ::ₘ a2 ::ₘ x ::ₘ (l : Multiset Int) := by rw [hcoe]
            _ = a2 ::ₘ x ::ₘ a1 ::ₘ (l : Multiset Int) := cons_rotL a1 a2 x _
            _ = a2 ::ₘ (l.foldl twoLargestStep (x, a1)).1 ::ₘ
                  (l.foldl twoLargestStep (x, a1)).2 ::ₘ rest := by
                exact congrArg (fun m => a2 ::ₘ m) heq
            _ = (l.foldl twoLargestStep (x, a1)).1 ::ₘ a2 ::ₘ
                  (l.foldl twoLargestStep (x, a1)).2 ::ₘ rest :=
                Multiset.cons_swap _ _ _
            _ = (l.foldl twoLargestStep (x, a1)).1 ::ₘ
                  (l.foldl twoLargestStep (x, a1)).2 ::ₘ a2 ::ₘ rest :=
                congrArg (fun m => (l.foldl twoLargestStep (x, a1)).1 ::ₘ m)
                  (Multiset.cons_swap _ _ _)
        · intro z hz
          rcases Multiset.mem_cons.mp hz with hz | hz
          · exact hz ▸ le_trans h hb2
          · exact hbound z hz
      · by_cases h2 : x > a2
        · have hs : twoLargestStep (a1, a2) x = (a1, x) := by
            simp [twoLargestStep, h1, h2]
          rw [List.foldl_cons, hs]
          obtain ⟨hm, hb1, hb2, rest, heq, hbound⟩ := ih a1 x (not_lt.mp h1)
          refine ⟨hm, hb1, le_trans (le_of_lt h2) hb2, a2 ::ₘ rest, ?_, ?_⟩
          · calc a1 ::ₘ a2 ::ₘ (↑(x :: l) : Multiset Int)
                = a1 ::ₘ a2 ::ₘ x ::ₘ (l : Multiset Int) := by rw [hcoe]
              _ = a2 ::ₘ a1 ::ₘ x ::ₘ (l : Multiset Int) := Multiset.cons_swap _ _ _
              _ = a2 ::ₘ (l.foldl twoLargestStep (a1, x)).1 ::ₘ
                    (l.foldl twoLargestStep (a1, x)).2 ::ₘ rest :=
                  congrArg (fun m => a2 ::ₘ m) heq
              _ = (l.foldl twoLargestStep (a1, x)).1 ::ₘ a2 ::ₘ
                    (l.foldl twoLargestStep (a1, x)).2 ::ₘ rest :=
                  Multiset.cons_swap _ _ _
              _ = (l.foldl twoLargestStep (a1, x)).1 ::ₘ
                    (l.foldl twoLargestStep (a1, x)).2 ::ₘ a2 ::ₘ rest :=
                  congrArg (fun m => (l.foldl twoLargestStep (a1, x)).1 ::ₘ m)
                    (Multiset.cons_swap _ _ _)
          · intro z hz
            rcases Multiset.mem_cons.mp hz with hz | hz
            · exact hz ▸ le_trans (le_of_lt h2) hb2
            · exact hbound z hz
        · have hs : twoLargestStep (a1, a2) x = (a1, a2) := by
            simp [twoLargestStep, h1, h2]
          rw [List.foldl_cons, hs]
          obtain ⟨hm, hb1, hb2, rest, heq, hbound⟩ := ih a1 a2 h
          refine ⟨hm, hb1, hb2, x ::ₘ rest, ?_, ?_⟩
          · calc a1 ::ₘ a2 ::ₘ (↑(x :: l) : Multiset Int)
                = a1 ::ₘ a2 ::ₘ x ::ₘ (l : Multiset Int) := by rw [hcoe]
              _ = x ::ₘ a1 ::ₘ a2 ::ₘ (l : Multiset Int) := cons_rotR a1 a2 x _
              _ = x ::ₘ (l.foldl twoLargestStep (a1, a2)).1 ::ₘ
                    (l.foldl twoLargestStep (a1, a2)).2 ::ₘ rest :=
                  congrArg (fun m => x ::ₘ m) heq
              _ = (l.foldl twoLargestStep (a1, a2)).1 ::ₘ x ::ₘ
                    (l.foldl twoLargestStep (a1, a2)).2 ::ₘ rest :=
                  Multiset.cons_swap _ _ _
              _ = (l.foldl twoLargestStep (a1, a2)).1 ::ₘ
                    (l.foldl twoLargestStep (a1, a2)).2 ::ₘ x ::ₘ rest :=
                  congrArg (fun m => (l.foldl twoLargestStep (a1, a2)).1 ::ₘ m)
                    (Multiset.cons_swap _ _ _)
          · intro z hz
            rcases Multiset.mem_cons.mp hz with hz | hz
            · exact hz ▸ le_trans (not_lt.mp h2) hb2
            · exact hbound z hz

/-- C1: the coordinator's early-exit decision fires exactly when
`max2 + 0.5 * remaining < max1`, where the `max1`/`max2` computed by the
scan are the two largest aggregate visit counts (with multiplicity, over a
vector of at least two nonnegative entries); on the synthetic vectors of
the specification the test fires for `max1 = 1000, max2 = 100,
remaining = 50` and does not fire for `max1 = 110, max2 = 100,
remaining = 50`. -/
theorem C1_early_exit_test (l : List Int) (remaining : Int)
    (hlen : 2 ≤ l.length) (hpos : ∀ x ∈ l, 0 ≤ x) :
    (∃ rest : Multiset Int,
        (l : Multiset Int) = (twoLargest l).1 ::ₘ (twoLargest l).2 ::ₘ rest ∧
        (twoLargest l).2 ≤ (twoLargest l).1 ∧
        ∀ x ∈ rest, x ≤ (twoLargest l).2) ∧
    (earlyExit l remaining = true ↔
        ((twoLargest l).2 : ℚ) + (1 / 2 : ℚ) * (remaining : ℚ) <
          ((twoLargest l).1 : ℚ)) ∧
    earlyExit (1000 :: 100 :: List.replicate 79 0) 50 = true ∧
    earlyExit (110 :: 100 :: List.replicate 79 0) 50 = false := by
  have ht1 : twoLargest (1000 :: 100 :: List.replicate 79 0) = (1000, 100) := by decide
  have ht2 : twoLargest (110 :: 100 :: List.replicate 79 0) = (110, 100) := by decide
  refine ⟨?_, by simp [earlyExit], ?_, ?_⟩
  case refine_2 =>
    simp only [earlyExit, ht1, decide_eq_true_eq]
    norm_num
  case refine_3 =>
    simp only [earlyExit, ht2, decide_eq_false_iff_not]
    norm_num
  match l, hlen with
  | x :: y :: l2, _ =>
      have hx : (0 : Int) ≤ x := hpos x (by simp)
      have hy : (0 : Int) ≤ y := hpos y (by simp)
      have hsent : intSentinel < 0 := by decide
      have hxs : x > intSentinel := lt_of_lt_of_le hsent hx
      have hys : y > intSentinel := lt_of_lt_of_le hsent hy
      have step1 : twoLargestStep (intSentinel, intSentinel) x = (x, intSentinel) := by
        simp [twoLargestStep, hxs]
      have hunfold : twoLargest (x :: y :: l2) =
          l2.foldl twoLargestStep (twoLargestStep (x, intSentinel) y) := by
        simp [twoLargest, List.foldl_cons, step1]
      by_cases hyx : y > x
      · have step2 : twoLargestStep (x, intSentinel) y = (y, x) := by
          simp [twoLargestStep, hyx]
        rw [hunfold, step2]
        obtain ⟨hm, _, hb2, rest, heq, hbound⟩ := twoLargest_aux l2 y x (le_of_lt hyx)
        refine ⟨rest, ?_, hm, hbound⟩
        calc (↑(x :: y :: l2) : Multiset Int)
            = x ::ₘ y ::ₘ (l2 : Multiset Int) := rfl
          _ = y ::ₘ x ::ₘ (l2 : Multiset Int) := Multiset.cons_swap _ _ _
          _ = (l2.foldl twoLargestStep (y, x)).1 ::ₘ
                (l2.foldl twoLargestStep (y, x)).2 ::ₘ rest := heq
      · have step2 : twoLargestStep (x, intSentinel) y = (x, y) := by
          simp [twoLargestStep, hyx, hys]
        rw [hunfold, step2]
        obtain ⟨hm, _, hb2, rest, heq, hbound⟩ := twoLargest_aux l2 x y (not_lt.mp hyx)
        exact ⟨rest, heq, hm, hbound⟩

/-- C1 witness: the theorem applied to the first synthetic vector with
`remaining = 50`. -/
theorem C1_early_exit_test_witness :
    earlyExit (1000 :: 100 :: List.replicate 79 0) 50 = true ↔
      ((twoLargest (1000 :: 100 :: List.replicate 79 0)).2 : ℚ) +
          (1 / 2 : ℚ) * ((50 : Int) : ℚ) <
        ((twoLargest (1000 :: 100 :: List.replicate 79 0)).1 : ℚ) :=
  (C1_early_exit_test (1000 :: 100 :: List.replicate 79 0) 50 (by decide)
    (by decide)).2.1

/-- C2: `win_rate = win_cnt / total_cnt`, defined as `0` when
`total_cnt = 0`; the UCB score is `win_rate + c * sqrt(ln(parent_total) /
total_cnt)` when both counts are positive and degrades to `win_rate` alone
when either count is zero. -/
theorem C2_ucb_formula (p n : Nat) (w : Int) (c : ℝ) :
    (n = 0 → win_rate w n = 0) ∧
    (0 < n → win_rate w n = (w : ℝ) / (n : ℝ)) ∧
    ((p = 0 ∨ n = 0) → ucb p w n c = win_rate w n) ∧
    (0 < p → 0 < n →
      ucb p w n c = (w : ℝ) / (n : ℝ) +
        c * Real.sqrt (Real.log (p : ℝ) / (n : ℝ))) := by
  refine ⟨fun h => by simp [win_rate, h], fun h => ?_, fun h => by simp [ucb, h], fun hp hn => ?_⟩
  · have h0 : n ≠ 0 := Nat.pos_iff_ne_zero.mp h
    simp [win_rate, h0]
  · have h0 : ¬(p = 0 ∨ n = 0) := by omega
    have hn0 : n ≠ 0 := Nat.pos_iff_ne_zero.mp hn
    simp [ucb, h0, win_rate, hn0]
    exact fun h => absurd h (Nat.pos_iff_ne_zero.mp hp)

/-- C2 witness: the theorem applied at concrete counts
(`total_cnt = 0`; `parent_total = 0`; `parent_total = 2, total_cnt = 1`). -/
theorem C2_ucb_formula_witness :
    win_rate 1 0 = 0 ∧ ucb 0 1 5 1 = win_rate 1 5 ∧
    ucb 2 1 1 1 = ((1 : Int) : ℝ) / ((1 : Nat) : ℝ) +
      1 * Real.sqrt (Real.log ((2 : Nat) : ℝ) / ((1 : Nat) : ℝ)) :=
  ⟨(C2_ucb_formula 0 0 1 1).1 rfl, (C2_ucb_formula 0 5 1 1).2.2.1 (Or.inl rfl),
   (C2_ucb_formula 2 1 1 1).2.2.2 (by norm_num) (by norm_num)⟩

/-! ### Paths through the tree -/

/-- A list of child keys that can actually be followed from a node
(each key present in the children map of the node reached so far) —
the shape of the node-pointer path built by `select_root_to_leaf`. -/
inductive ValidPath : GTree S → List Nat → Prop where
  | nil (t : GTree S) : ValidPath t []
  | cons {t : GTree S} {k : Nat} {ch : GTree S} {ks : List Nat} :
      lookupChild k t.children = some ch → ValidPath ch ks → ValidPath t (k :: ks)

theorem back_propagate_root (turn : S → Player) (winner : Player)
    (ks : List Nat) (t : GTree S) :
    (back_propagate turn winner ks t).totalCnt = t.totalCnt + 1 ∧
    (back_propagate turn winner ks t).winCnt =
      t.winCnt + (if winner ≠ turn t.state then 1 else -1) ∧
    (back_propagate turn winner ks t).state = t.state ∧
    (back_propagate turn winner ks t).placePos = t.placePos := by
  cases ks <;> simp [back_propagate]

theorem back_propagate_children_nil (turn : S → Player) (winner : Player)
    (t : GTree S) :
    (back_propagate turn winner [] t).children = t.children := by
  simp [back_propagate]

theorem back_propagate_children_cons (turn : S → Player) (winner : Player)
    (k : Nat) (ks : List Nat) (t : GTree S) :
    (back_propagate turn winner (k :: ks) t).children =
      updChild k (back_propagate turn winner ks) t.children := by
  simp [back_propagate]

/-- C4: backpropagation adds exactly `1` to `total_cnt` of every node on
the path, and adds `1` to (resp. subtracts `1` from) `win_cnt` of a node
according to whether the simulated winner differs from the player to move
at that node. -/
theorem C4_back_propagation (turn : S → Player) (winner : Player) :
    ∀ (p rest : List Nat) (t : GTree S), ValidPath t (p ++ rest) →
      ∃ u u', followPath t p = some u ∧
        followPath (back_propagate turn winner (p ++ rest) t) p = some u' ∧
        u'.totalCnt = u.totalCnt + 1 ∧
        u'.winCnt = u.winCnt + (if winner ≠ turn u.state then 1 else -1) ∧
        u'.state = u.state := by
  intro p
  induction p with
  | nil =>
      intro rest t _
      obtain ⟨h1, h2, h3, _⟩ := back_propagate_root turn winner rest t
      exact ⟨t, back_propagate turn winner rest t, rfl, rfl, h1, h2, h3⟩
  | cons k p' ih =>
      intro rest t h
      cases h with
      | cons hlk hvalid =>
          rename_i ch
          obtain ⟨u, u', hu, hu', hcnt, hwin, hst⟩ := ih rest ch hvalid
          refine ⟨u, u', ?_, ?_, hcnt, hwin, hst⟩
          · simp [followPath, hlk, hu]
          · simp [followPath, back_propagate_children_cons,
              updChild_lookup_self _ hlk, hu']

/-- C4 witness: the theorem applied to a two-node tree over the trivial
game with path `[0]`. -/
theorem C4_back_propagation_witness :
    ∃ u u', followPath (GTree.mk () (-1) 0 3 [(0, GTree.fresh () 0)]) [0] = some u ∧
      followPath
        (back_propagate (fun _ => Player.white) Player.black [0]
          (GTree.mk () (-1) 0 3 [(0, GTree.fresh () 0)])) [0] = some u' ∧
      u'.totalCnt = u.totalCnt + 1 ∧
      u'.winCnt = u.winCnt +
        (if Player.black ≠ (fun _ : Unit => Player.white) u.state then 1 else -1) ∧
      u'.state = u.state :=
  C4_back_propagation (fun _ => Player.white) Player.black [0] []
    (GTree.mk () (-1) 0 3 [(0, GTree.fresh () 0)])
    (ValidPath.cons rfl (ValidPath.nil _))

/-! ### Rollout termination -/

theorem rollout_dead (place : S → Nat → Option S) (b : S)
    (hdead : ∀ p, place b p = none) :
    ∀ (fuel : Nat) (q : List Nat) (cnt : Nat), q.length - cnt = fuel →
      cnt ≤ q.length → rollout place b q cnt = (b, q.length - cnt) := by
  intro fuel
  induction fuel with
  | zero =>
      intro q cnt hf hle
      have h : q.length ≤ cnt := by omega
      rw [rollout]
      simp [h]
  | succ n ih =>
      intro q cnt hf hle
      have h : ¬(q.length ≤ cnt) := by omega
      cases q with
      | nil => simp at h
      | cons i rest =>
          rw [rollout]
          rw [dif_neg h]
          simp only [hdead i]
          have hlen : (rest ++ [i]).length = (i :: rest).length := by simp
          have := ih (rest ++ [i]) (cnt + 1) (by simp at hf ⊢; omega)
            (by simp at h ⊢; omega)
          rw [this]
          simp at hf ⊢
          omega

/-- C6: the rollout loop terminates and, started from a board with no
legal placement at all, returns that board after exactly one full scan
over the queue (one loop iteration per queue entry); the rollout winner is
always the opponent of the player to move at the terminal position, i.e.
the mover-to-act at the terminal position is the loser. -/
theorem C6_rollout_termination (turn : S → Player) (place : S → Nat → Option S)
    (b : S) (q : List Nat) (hdead : ∀ p, place b p = none) :
    rollout place b q 0 = (b, q.length) ∧
    ∀ order : List Nat,
      simulate_winner turn place b order =
        Player.opp (turn (rollout place b order 0).1) ∧
      simulate_winner turn place b order ≠ turn (rollout place b order 0).1 := by
  constructor
  · have := rollout_dead place b hdead (q.length) q 0 (by omega) (by omega)
    simpa using this
  · intro order
    exact ⟨rfl, Player.opp_ne _⟩

/-- C6 witness: the theorem applied to the trivial game with no legal
moves, over the full 81-cell queue. -/
theorem C6_rollout_termination_witness :
    rollout (fun _ _ => (none : Option Unit)) () (List.range 81) 0 =
      ((), (List.range 81).length) ∧
    ∀ order : List Nat,
      simulate_winner (fun _ => Player.white) (fun _ _ => (none : Option Unit)) () order =
        Player.opp ((fun _ : Unit => Player.white)
          (rollout (fun _ _ => (none : Option Unit)) () order 0).1) ∧
      simulate_winner (fun _ => Player.white) (fun _ _ => (none : Option Unit)) () order ≠
        (fun _ : Unit => Player.white)
          (rollout (fun _ _ => (none : Option Unit)) () order 0).1 :=
  C6_rollout_termination (fun _ => Player.white) (fun _ _ => none) () (List.range 81)
    (fun _ => rfl)

/-! ### The visit-count invariant -/

/-- The claim's invariant: at every node of the tree, `total_cnt` is at
least the sum of the children's `total_cnt`. -/
inductive VisitInv : GTree S → Prop where
  | mk {t : GTree S} : childSum t.children ≤ t.totalCnt →
      (∀ kc ∈ t.children, VisitInv kc.2) → VisitInv t

/-- Structural well-formedness maintained by the code: the invariant above
together with distinct keys in every children map (`std::unordered_map`
has unique keys). -/
inductive Inv : GTree S → Prop where
  | mk {t : GTree S} : childSum t.children ≤ t.totalCnt →
      (t.children.map Prod.fst).Nodup →
      (∀ kc ∈ t.children, Inv kc.2) → Inv t

theorem Inv.sum_le {t : GTree S} (h : Inv t) : childSum t.children ≤ t.totalCnt := by
  cases h; assumption

theorem Inv.keysNodup {t : GTree S} (h : Inv t) : (t.children.map Prod.fst).Nodup := by
  cases h; assumption

theorem Inv.child {t : GTree S} (h : Inv t) :
    ∀ kc ∈ t.children, Inv kc.2 := by
  cases h; assumption

theorem Inv.visitInv {t : GTree S} (h : Inv t) : VisitInv t := by
  induction h with
  | mk hsum _ _ ih => exact VisitInv.mk hsum ih

theorem Inv.fresh (s : S) (m : Int) : Inv (GTree.fresh s m) :=
  Inv.mk (by simp [GTree.fresh]) (by simp [GTree.fresh]) (by simp [GTree.fresh])

theorem lookup_of_mem_nodup {k : Nat} {c : GTree S} {l : List (Nat × GTree S)}
    (hmem : (k, c) ∈ l) (hnd : (l.map Prod.fst).Nodup) :
    lookupChild k l = some c := by
  induction l with
  | nil => simp at hmem
  | cons kc rest ih =>
      obtain ⟨k', c'⟩ := kc
      simp at hnd
      rcases List.mem_cons.mp hmem with h | h
      · obtain ⟨hk, hc⟩ := Prod.mk.injEq .. ▸ h
        injection h with h1 h2
        simp [lookupChild, h1.symm, h2]
      · by_cases hk : k' = k
        · subst hk
          exact absurd h (hnd.1 c)
        · simp [lookupChild, hk, ih h hnd.2]

theorem lookupChild_eq_none {k : Nat} {l : List (Nat × GTree S)} :
    lookupChild k l = none ↔ k ∉ l.map Prod.fst := by
  induction l with
  | nil => simp [lookupChild]
  | cons kc rest ih =>
      obtain ⟨k', c'⟩ := kc
      by_cases hk : k' = k
      · subst hk
        simp [lookupChild]
      · simp [lookupChild, hk, ih, Ne.symm hk]

theorem lookup_append_new {k : Nat} {l : List (Nat × GTree S)} (x : GTree S)
    (h : lookupChild k l = none) : lookupChild k (l ++ [(k, x)]) = some x := by
  induction l with
  | nil => simp [lookupChild]
  | cons kc rest ih =>
      obtain ⟨k', c'⟩ := kc
      by_cases hk : k' = k
      · subst hk
        simp [lookupChild] at h
      · simp [lookupChild, hk] at h ⊢
        exact ih h

/-- The selection path is a followable path whenever the children maps
have distinct keys. -/
theorem select_valid (place : S → Nat → Option S) (c : ℝ) :
    ∀ (n : Nat) (t : GTree S), sizeOf t ≤ n → Inv t →
      ValidPath t (select_root_to_leaf place c t) := by
  intro n
  induction n with
  | zero =>
      intro t hle
      cases t with
      | mk s p w m l => simp at hle
  | succ n ih =>
      intro t hle hInv
      rw [select_root_to_leaf]
      by_cases hl : is_leaf place t = true
      · simp [hl]
        exact ValidPath.nil t
      · simp [hl]
        cases hbc : bestChild c t.totalCnt t.children with
        | none => exact ValidPath.nil t
        | some kc =>
            have hmem := bestChild_mem hbc
            have hlk : lookupChild kc.1 t.children = some kc.2 :=
              lookup_of_mem_nodup (by cases kc; exact hmem) hInv.keysNodup
            have hsz : sizeOf kc.2 ≤ n := by
              have := child_sizeOf_lt hmem
              omega
            exact ValidPath.cons hlk (ih kc.2 hsz (hInv.child kc hmem))

theorem expandScan_spec (place : S → Nat → Option S) (s : S)
    (l : List (Nat × GTree S)) :
    ∀ (order : List Nat) (p : Nat) (s' : S),
      expandScan place s l order = some (p, s') →
      place s p = some s' ∧ lookupChild p l = none := by
  intro order
  induction order with
  | nil => intro p s' h; simp [expandScan] at h
  | cons q rest ih =>
      intro p s' h
      rw [expandScan] at h
      cases hpl : place s q with
      | none =>
          rw [hpl] at h
          exact ih p s' h
      | some s2 =>
          rw [hpl] at h
          by_cases hno : (lookupChild q l).isNone
          · simp [hno] at h
            rcases h with ⟨rfl, rfl⟩
            exact ⟨hpl, Option.isNone_iff_eq_none.mp hno⟩
          · simp [hno] at h
            exact ih p s' h

theorem expandAlong_root (place : S → Nat → Option S) :
    ∀ (ks order : List Nat) (t : GTree S),
      (expandAlong place t ks order).1.totalCnt = t.totalCnt ∧
      (expandAlong place t ks order).1.winCnt = t.winCnt ∧
      (expandAlong place t ks order).1.state = t.state ∧
      (expandAlong place t ks order).1.placePos = t.placePos := by
  intro ks order t
  cases ks with
  | nil =>
      rw [expandAlong]
      cases hscan : expandScan place t.state t.children order with
      | none => simp [expand_from_leaf, hscan]
      | some ps => obtain ⟨p, s'⟩ := ps; simp [expand_from_leaf, hscan]
  | cons k rest =>
      rw [expandAlong]
      cases hlk : lookupChild k t.children with
      | none => simp
      | some ch => simp

theorem expandAlong_inv (place : S → Nat → Option S) :
    ∀ (ks order : List Nat) (t : GTree S), Inv t →
      Inv (expandAlong place t ks order).1 := by
  intro ks
  induction ks with
  | nil =>
      intro order t hInv
      rw [expandAlong]
      cases hscan : expandScan place t.state t.children order with
      | none => simpa [expand_from_leaf, hscan] using hInv
      | some ps =>
          obtain ⟨p, s'⟩ := ps
          obtain ⟨hpl, hnew⟩ := expandScan_spec place t.state t.children order p s' hscan
          simp only [expand_from_leaf, hscan]
          refine Inv.mk ?_ ?_ ?_
          · simp only [GTree.children_mk]
            have : childSum (t.children ++ [(p, GTree.fresh s' p)]) =
                childSum t.children := by
              simp [childSum, GTree.fresh]
            rw [this]
            simpa using hInv.sum_le
          · simp only [GTree.children_mk, List.map_append]
            refine List.Nodup.append hInv.keysNodup (by simp) ?_
            intro a ha hb
            simp at hb
            subst hb
            exact (lookupChild_eq_none.mp hnew) ha
          · simp only [GTree.children_mk]
            intro kc hkc
            rcases List.mem_append.mp hkc with h | h
            · exact hInv.child kc h
            · simp at h
              rw [h]
              exact Inv.fresh s' p
  | cons k rest ih =>
      intro order t hInv
      rw [expandAlong]
      cases hlk : lookupChild k t.children with
      | none => simpa using hInv
      | some ch =>
          simp only
          have hchInv : Inv ch := hInv.child (k, ch) (lookupChild_mem hlk)
          have hsub := ih order ch hchInv
          refine Inv.mk ?_ ?_ ?_
          · simp only [GTree.children_mk, GTree.totalCnt_mk]
            have hsum := updChild_sum
              (fun _ => (expandAlong place ch rest order).1) hlk
            simp only at hsum
            have htot := (expandAlong_root place rest order ch).1
            have := hInv.sum_le
            omega
          · simp only [GTree.children_mk]
            rw [updChild_keys]
            exact hInv.keysNodup
          · simp only [GTree.children_mk]
            intro kc hkc
            rcases updChild_mem _ hkc with h | ⟨c0, hc0, hkc0⟩
            · exact hInv.child kc h
            · subst hkc0
              exact hsub

theorem expandAlong_valid (place : S → Nat → Option S) :
    ∀ (ks order : List Nat) (t : GTree S), ValidPath t ks →
      ValidPath (expandAlong place t ks order).1 (expandAlong place t ks order).2 := by
  intro ks
  induction ks with
  | nil =>
      intro order t _
      rw [expandAlong]
      cases hscan : expandScan place t.state t.children order with
      | none =>
          simp only [expand_from_leaf, hscan]
          exact ValidPath.nil _
      | some ps =>
          obtain ⟨p, s'⟩ := ps
          obtain ⟨hpl, hnew⟩ := expandScan_spec place t.state t.children order p s' hscan
          simp only [expand_from_leaf, hscan]
          exact ValidPath.cons (by simpa using lookup_append_new _ hnew) (ValidPath.nil _)
  | cons k rest ih =>
      intro order t h
      cases h with
      | cons hlk hvalid =>
          rename_i ch
          rw [expandAlong, hlk]
          simp only
          exact ValidPath.cons
            (by simpa using updChild_lookup_self (fun _ => (expandAlong place ch rest order).1) hlk)
            (ih order ch hvalid)

theorem back_propagate_inv (turn : S → Player) (winner : Player) :
    ∀ (ks : List Nat) (t : GTree S), ValidPath t ks → Inv t →
      Inv (back_propagate turn winner ks t) := by
  intro ks
  induction ks with
  | nil =>
      intro t _ hInv
      refine Inv.mk ?_ ?_ ?_
      · rw [back_propagate_children_nil]
        have h1 := (back_propagate_root turn winner [] t).1
        have := hInv.sum_le
        omega
      · rw [back_propagate_children_nil]
        exact hInv.keysNodup
      · rw [back_propagate_children_nil]
        exact hInv.child
  | cons k rest ih =>
      intro t h hInv
      cases h with
      | cons hlk hvalid =>
          rename_i ch
          have hchInv : Inv ch := hInv.child (k, ch) (lookupChild_mem hlk)
          refine Inv.mk ?_ ?_ ?_
          · rw [back_propagate_children_cons]
            have h1 := (back_propagate_root turn winner (k :: rest) t).1
            have hsum := updChild_sum (back_propagate turn winner rest) hlk
            have h2 := (back_propagate_root turn winner rest ch).1
            have := hInv.sum_le
            omega
          · rw [back_propagate_children_cons, updChild_keys]
            exact hInv.keysNodup
          · rw [back_propagate_children_cons]
            intro kc hkc
            rcases updChild_mem _ hkc with hmem | ⟨c0, hc0, hkc0⟩
            · exact hInv.child kc hmem
            · have he : c0 = ch := by
                rw [hc0] at hlk
                exact Option.some.inj hlk
              subst hkc0
              subst he
              exact ih _ hvalid hchInv

theorem mcts_cycle_root (turn : S → Player) (place : S → Nat → Option S)
    (all_space : R → List Nat × R) (c : ℝ) (t : GTree S) (r : R) :
    (mcts_cycle turn place all_space c t r).1.totalCnt = t.totalCnt + 1 ∧
    (mcts_cycle turn place all_space c t r).1.state = t.state ∧
    (mcts_cycle turn place all_space c t r).1.placePos = t.placePos := by
  simp only [mcts_cycle]
  refine ⟨?_, ?_, ?_⟩
  · rw [(back_propagate_root turn _ _ _).1, (expandAlong_root place _ _ t).1]
  · rw [(back_propagate_root turn _ _ _).2.2.1, (expandAlong_root place _ _ t).2.2.1]
  · rw [(back_propagate_root turn _ _ _).2.2.2, (expandAlong_root place _ _ t).2.2.2]

theorem mcts_cycle_inv (turn : S → Player) (place : S → Nat → Option S)
    (all_space : R → List Nat × R) (c : ℝ) (t : GTree S) (r : R) (h : Inv t) :
    Inv (mcts_cycle turn place all_space c t r).1 := by
  simp only [mcts_cycle]
  exact back_propagate_inv turn _ _ _
    (expandAlong_valid place _ _ t (select_valid place c (sizeOf t) t le_rfl h))
    (expandAlong_inv place _ _ t h)

theorem MCTS_root (turn : S → Player) (place : S → Nat → Option S)
    (all_space : R → List Nat × R) (c : ℝ) :
    ∀ (n : Nat) (t : GTree S) (r : R),
      (MCTS turn place all_space c n t r).1.totalCnt = t.totalCnt + n ∧
      (MCTS turn place all_space c n t r).1.state = t.state ∧
      (MCTS turn place all_space c n t r).1.placePos = t.placePos := by
  intro n
  induction n with
  | zero => intro t r; simp [MCTS]
  | succ n ih =>
      intro t r
      rw [MCTS]
      refine ⟨?_, ?_, ?_⟩
      · rw [(ih _ _).1, (mcts_cycle_root turn place all_space c t r).1]
        omega
      · rw [(ih _ _).2.1, (mcts_cycle_root turn place all_space c t r).2.1]
      · rw [(ih _ _).2.2, (mcts_cycle_root turn place all_space c t r).2.2]

theorem MCTS_inv (turn : S → Player) (place : S → Nat → Option S)
    (all_space : R → List Nat × R) (c : ℝ) :
    ∀ (n : Nat) (t : GTree S) (r : R), Inv t →
      Inv (MCTS turn place all_space c n t r).1 := by
  intro n
  induction n with
  | zero => intro t r h; simpa [MCTS] using h
  | succ n ih =>
      intro t r h
      rw [MCTS]
      exact ih _ _ (mcts_cycle_inv turn place all_space c t r h)

/-- C5: after any number of completed
select/expand/simulate/backpropagate cycles on a fresh root, every node of
the tree has `total_cnt` at least the sum of its children's `total_cnt`,
and the root's `total_cnt` equals exactly the number of completed
cycles. -/
theorem C5_visit_conservation (turn : S → Player) (place : S → Nat → Option S)
    (all_space : R → List Nat × R) (c : ℝ) (n : Nat) (s0 : S) (r0 : R) :
    VisitInv (MCTS turn place all_space c n (GTree.fresh s0 (-1)) r0).1 ∧
    (MCTS turn place all_space c n (GTree.fresh s0 (-1)) r0).1.totalCnt = n := by
  constructor
  · exact (MCTS_inv turn place all_space c n _ r0 (Inv.fresh s0 (-1))).visitInv
  · rw [(MCTS_root turn place all_space c n _ r0).1]
    simp [GTree.fresh]

/-! ### Cold-node selection (C3) -/

/-- Maximality of the argmax loop: the selected entry's UCB score is at
least the initial best's and every scanned entry's. -/
theorem bestChildAux_max (c : ℝ) (p : Nat) :
    ∀ (l : List (Nat × GTree S)) (b : Nat × GTree S),
      ucb p b.2.winCnt b.2.totalCnt c ≤
        ucb p (bestChildAux c p b l).2.winCnt (bestChildAux c p b l).2.totalCnt c ∧
      ∀ x ∈ l, ucb p x.2.winCnt x.2.totalCnt c ≤
        ucb p (bestChildAux c p b l).2.winCnt (bestChildAux c p b l).2.totalCnt c := by
  intro l
  induction l with
  | nil => intro b; exact ⟨le_refl _, by simp⟩
  | cons kc rest ih =>
      intro b
      simp only [bestChildAux]
      by_cases h : ucb p kc.2.winCnt kc.2.totalCnt c > ucb p b.2.winCnt b.2.totalCnt c
      · rw [if_pos h]
        obtain ⟨h1, h2⟩ := ih kc
        refine ⟨le_trans (le_of_lt h) h1, ?_⟩
        intro x hx
        rcases List.mem_cons.mp hx with hx | hx
        · exact hx ▸ h1
        · exact h2 x hx
      · rw [if_neg h]
        obtain ⟨h1, h2⟩ := ih b
        refine ⟨h1, ?_⟩
        intro x hx
        rcases List.mem_cons.mp hx with hx | hx
        · exact hx ▸ le_trans (not_lt.mp h) h1
        · exact h2 x hx

/-- Test fixture for C3: a two-move game.  From state `0` exactly the
positions `0` and `1` are legal (both lead to state `1`); from state `1`
nothing is legal. -/
def place3 : Nat → Nat → Option Nat :=
  fun s p => if s = 0 ∧ (p = 0 ∨ p = 1) then some 1 else none

/-- A never-visited child (visit count `0`). -/
def coldNode : GTree Nat := GTree.mk 1 0 0 0 []

/-- A visited sibling with one win in one visit. -/
def hotNode : GTree Nat := GTree.mk 1 1 1 1 []

/-- A fully expanded parent with visit count `3` holding the cold child
under key `0` and the visited sibling under key `1`. -/
def c3parent : GTree Nat := GTree.mk 0 (-1) 0 3 [(0, coldNode), (1, hotNode)]

theorem c3_hot_ucb_pos : ucb 3 hotNode.winCnt hotNode.totalCnt 1 >
    ucb 3 coldNode.winCnt coldNode.totalCnt 1 := by
  have h1 : ucb 3 coldNode.winCnt coldNode.totalCnt 1 = 0 := by
    simp [ucb, win_rate, coldNode]
  have h2 : ucb 3 hotNode.winCnt hotNode.totalCnt 1 =
      1 + Real.sqrt (Real.log 3 / 1) := by
    simp [ucb, win_rate, hotNode]
  rw [h1, h2]
  have := Real.sqrt_nonneg (Real.log 3 / 1)
  linarith

theorem c3_bestChild_eq :
    bestChild 1 c3parent.totalCnt c3parent.children = some (1, hotNode) := by
  have hb : bestChildAux 1 3 (0, coldNode) [(1, hotNode)] = (1, hotNode) := by
    simp only [bestChildAux]
    rw [if_pos c3_hot_ucb_pos]
  simp [bestChild, c3parent, hb]

theorem c3_select_eq : select_root_to_leaf place3 1 c3parent = [1] := by
  have hleaf : is_leaf place3 c3parent = false := by decide
  have hleaf2 : is_leaf place3 hotNode = true := by decide
  have hsel2 : select_root_to_leaf place3 1 hotNode = [] := by
    rw [select_root_to_leaf]
    simp [hleaf2]
  rw [select_root_to_leaf]
  simp only [hleaf, Bool.false_eq_true, if_false]
  split
  · rename_i heq
    rw [c3_bestChild_eq] at heq
    cases heq
  · rename_i kc heq
    rw [c3_bestChild_eq] at heq
    injection heq with heq
    subst heq
    simp [hsel2]

/-- C3 counterexample: in a node with positive visit count having a cold
child (`visit_count = 0`, key `0`) and a visited sibling
(`visit_count = 1`, one win, key `1`), selection descends into the visited
sibling, not the cold child — the cold child is not prioritized. -/
theorem C3_counterexample :
    0 < c3parent.totalCnt ∧
    (0, coldNode) ∈ c3parent.children ∧ coldNode.totalCnt = 0 ∧
    (1, hotNode) ∈ c3parent.children ∧ 0 < hotNode.totalCnt ∧
    select_root_to_leaf place3 1 c3parent = [1] :=
  ⟨by decide, by simp [c3parent], rfl, by simp [c3parent], by decide, c3_select_eq⟩

/-- C3 amended: a cold child receives UCB score `0` (its win rate) rather
than priority; selection maximizes the UCB score over the children, so a
cold child is selected before a visited sibling only when that sibling's
UCB score does not exceed `0` — a visited sibling with positive UCB score
is revisited first. -/
theorem C3_cold_node_policy (c : ℝ) (p : Nat) (w : Int)
    (l : List (Nat × GTree S)) (kc : Nat × GTree S)
    (h : bestChild c p l = some kc) :
    ucb p w 0 c = 0 ∧
    ∀ x ∈ l, ucb p x.2.winCnt x.2.totalCnt c ≤
      ucb p kc.2.winCnt kc.2.totalCnt c := by
  constructor
  · simp [ucb, win_rate]
  · cases l with
    | nil => simp [bestChild] at h
    | cons b rest =>
        simp only [bestChild] at h
        obtain ⟨h1, h2⟩ := bestChildAux_max c p rest b
        injection h with h
        intro x hx
        rcases List.mem_cons.mp hx with hx | hx
        · exact hx ▸ (h ▸ h1)
        · exact h ▸ h2 x hx

/-- C3 amended-claim witness: the policy applied to the concrete parent of
the counterexample fixture. -/
theorem C3_cold_node_policy_witness :
    ucb 3 0 0 1 = 0 ∧
    ∀ x ∈ c3parent.children, ucb 3 x.2.winCnt x.2.totalCnt 1 ≤
      ucb 3 (1, hotNode).2.winCnt (1, hotNode).2.totalCnt 1 :=
  C3_cold_node_policy 1 3 0 c3parent.children (1, hotNode) c3_bestChild_eq

/-! ### Concrete game capabilities used as test fixtures -/

/-- A game in which White is always to move (test fixture). -/
def turnW : Unit → Player := fun _ => Player.white

/-- A game with no legal placement anywhere (test fixture). -/
def deadPlace : Unit → Nat → Option Unit := fun _ _ => none

/-- A counting model of the shared random engine: `all_space` returns the
unshuffled candidate list and advances the state by one draw. -/
def natSpace : Nat → List Nat × Nat := fun r => (List.range 81, r + 1)

theorem dead_select (c : ℝ) (p w : Int) (n : Nat) :
    select_root_to_leaf deadPlace c (GTree.mk () p w n []) = [] := by
  have hleaf : is_leaf deadPlace (GTree.mk () p w n []) = true := by
    simp [is_leaf, countLegal, deadPlace]
  rw [select_root_to_leaf]
  simp [hleaf]

theorem dead_expand (p w : Int) (n : Nat) (order : List Nat) :
    expandAlong deadPlace (GTree.mk () p w n []) [] order =
      (GTree.mk () p w n [], []) := by
  have hscan : ∀ o : List Nat, expandScan deadPlace () [] o = none := by
    intro o
    induction o with
    | nil => rfl
    | cons q rest ih => rw [expandScan]; simpa [deadPlace] using ih
  rw [expandAlong]
  simp [expand_from_leaf, hscan]

theorem dead_simulate (order : List Nat) :
    simulate_winner turnW deadPlace () order = Player.black := by
  unfold simulate_winner
  rw [rollout_dead deadPlace () (fun _ => rfl) order.length order 0 (by omega) (by omega)]
  rfl

theorem dead_cycle (c : ℝ) (p w : Int) (n : Nat) (r : Nat) :
    mcts_cycle turnW deadPlace natSpace c (GTree.mk () p w n []) r =
      (GTree.mk () p (w + 1) (n + 1) [], r + 2) := by
  simp only [mcts_cycle, dead_select, natSpace, dead_expand]
  rw [dead_simulate]
  simp [back_propagate, stateAtD, followPath, turnW, Player.opp]

theorem dead_MCTS (c : ℝ) (p w : Int) (n : Nat) :
    ∀ (k : Nat) (r : Nat),
      MCTS turnW deadPlace natSpace c k (GTree.mk () p w n []) r =
        (GTree.mk () p (w + (k : Int)) (n + k) [], r + 2 * k) := by
  intro k
  induction k generalizing w n with
  | zero => intro r; simp [MCTS]
  | succ k ih =>
      intro r
      rw [MCTS]
      simp only [dead_cycle]
      rw [ih]
      refine congrArg₂ Prod.mk (congrArg₂ (fun a b => GTree.mk () p a b []) ?_ ?_) ?_
      · push_cast
        ring
      · omega
      · omega

theorem childVisits_nil (t : GTree S) (h : t.children = []) :
    ∀ pos, childVisits t pos = 0 := by
  intro pos
  simp [childVisits, h, lookupChild]

theorem aggregateAt_zero (vecs : List (Nat → Nat))
    (h : ∀ v ∈ vecs, ∀ pos, v pos = 0) (pos : Nat) : aggregateAt vecs pos = 0 := by
  apply List.sum_eq_zero
  intro x hx
  obtain ⟨v, hv, rfl⟩ := List.mem_map.mp hx
  exact h v hv pos

theorem resultVec_zero (vecs : List (Nat → Nat))
    (h : ∀ v ∈ vecs, ∀ pos, v pos = 0) :
    resultVec vecs = List.replicate 81 0 := by
  unfold resultVec
  rw [List.map_congr_left (fun pos _ => by rw [aggregateAt_zero vecs h pos])]
  simp

theorem pickMove_zero : pickMove (List.replicate 81 (0 : Int)) = none := by decide

theorem earlyExit_zero_vec (rem : Int) (h : 0 ≤ rem) :
    earlyExit (List.replicate 81 0) rem = false := by
  have htwo : twoLargest (List.replicate 81 0) = (0, 0) := by decide
  simp only [earlyExit, htwo, decide_eq_false_iff_not, not_lt]
  have h2 : (0 : ℚ) ≤ (rem : ℚ) := by exact_mod_cast h
  nlinarith

theorem runRegion_one (turn : S → Player) (place : S → Nat → Option S)
    (all_space : R → List Nat × R) (c : ℝ) (n : Nat) (t : GTree S) (r : R) :
    runRegion turn place all_space c n [t] r =
      ([(MCTS turn place all_space c n t r).1], (MCTS turn place all_space c n t r).2) := by
  simp [runRegion]

/-! ### Iteration counting over the coordinator (C7) -/

/-- The early-exit test fires at no checkpoint of the run (mirrors the
recursion of `checkpointRun`). -/
def noExitRun (turn : S → Player) (place : S → Nat → Option S)
    (all_space : R → List Nat × R) (c : ℝ) (N W split : Nat) :
    List Nat → TAState S R → Prop
  | [], _ => True
  | i :: is, st =>
      let s := runRegion turn place all_space c (N / split) st.trees st.rng
      earlyExit (resultVec (s.1.map childVisits)) (remainingAt N W split i) = false ∧
        noExitRun turn place all_space c N W split is ⟨s.1, s.1.map childVisits, s.2⟩

theorem runRegion_total_map (turn : S → Player) (place : S → Nat → Option S)
    (all_space : R → List Nat × R) (c : ℝ) (n : Nat) (f : Nat → Nat) :
    ∀ (ts : List (GTree S)) (r : R),
      ((runRegion turn place all_space c n ts r).1).map (fun t => f t.totalCnt) =
        ts.map (fun t => f (t.totalCnt + n)) := by
  intro ts
  induction ts with
  | nil => intro r; simp [runRegion]
  | cons t ts ih =>
      intro r
      rw [runRegion]
      simp only [List.map_cons]
      rw [(MCTS_root turn place all_space c n t r).1, ih]

theorem checkpointRun_total_map (turn : S → Player) (place : S → Nat → Option S)
    (all_space : R → List Nat × R) (c : ℝ) (N W split : Nat) :
    ∀ (cps : List Nat) (st : TAState S R),
      noExitRun turn place all_space c N W split cps st →
      ((checkpointRun turn place all_space c N W split cps st).trees).map GTree.totalCnt =
        st.trees.map (fun t => t.totalCnt + cps.length * (N / split)) := by
  intro cps
  induction cps with
  | nil =>
      intro st _
      simp [checkpointRun]
  | cons i is ih =>
      intro st hno
      obtain ⟨hE, hrest⟩ := hno
      simp only [checkpointRun]
      rw [if_neg (by simp [hE])]
      rw [ih _ hrest]
      simp only
      rw [runRegion_total_map turn place all_space c (N / split)
        (fun x => x + is.length * (N / split)) st.trees st.rng]
      apply List.map_congr_left
      intro t _
      simp [List.length_cons]
      ring

/-- C7 amended: when the early-exit test never fires, every worker runs
`N/4 + (split - split/4) * (N/split)` iterations in total (with
`split = N/1000`), which is the final root visit count of each worker's
tree.  (This equals `N` only when the integer arithmetic aligns, e.g. for
`N` a multiple of 4000; for `N = 2000` it is `2500`.) -/
theorem C7_iteration_schedule (turn : S → Player) (place : S → Nat → Option S)
    (all_space : R → List Nat × R) (c : ℝ) (N W : Nat) (s0 : S) (r0 : R)
    (hN : N ≠ 0)
    (hno : noExitRun turn place all_space c N W (N / 1000) (taCheckpoints N)
      (taFirst turn place all_space c N (taInit s0 W r0))) :
    ((take_action turn place all_space c N W s0 r0).1.trees).map GTree.totalCnt =
      List.replicate W (N / 4 + (N / 1000 - N / 1000 / 4) * (N / (N / 1000))) := by
  unfold take_action
  rw [if_neg hN]
  simp only
  rw [checkpointRun_total_map turn place all_space c N W (N / 1000) (taCheckpoints N) _ hno]
  unfold taFirst taInit
  simp only
  rw [runRegion_total_map turn place all_space c (N / 4)
    (fun x => x + (taCheckpoints N).length * (N / (N / 1000)))
    (List.replicate W (GTree.fresh s0 (-1))) r0]
  simp [taCheckpoints, GTree.fresh, Nat.add_comm]

theorem remainingAt_nonneg (N W split i : Nat) (h : i ≤ split) :
    0 ≤ remainingAt N W split i := by
  unfold remainingAt
  have h1 : i * N / split ≤ N := by
    calc i * N / split ≤ split * N / split :=
          Nat.div_le_div_right (Nat.mul_le_mul_right _ h)
      _ ≤ N := by
          rcases Nat.eq_zero_or_pos split with h0 | h0
          · simp [h0]
          · rw [Nat.mul_div_cancel_left _ h0]
  have h2 : i * N / split * W ≤ N * W := Nat.mul_le_mul_right _ h1
  have h3 : ((i * N / split * W : Nat) : Int) ≤ ((N * W : Nat) : Int) := by
    exact_mod_cast h2
  omega

theorem dead_noExit (c : ℝ) (N W split : Nat) :
    ∀ (cps : List Nat), (∀ i ∈ cps, 0 ≤ remainingAt N W split i) →
      ∀ (p w : Int) (n r : Nat) (vecs : List (Nat → Nat)),
        noExitRun turnW deadPlace natSpace c N W split cps
          ⟨[GTree.mk () p w n []], vecs, r⟩ := by
  intro cps
  induction cps with
  | nil => intro _ p w n r vecs; trivial
  | cons i is ih =>
      intro hrem p w n r vecs
      simp only [noExitRun, runRegion_one]
      rw [dead_MCTS]
      simp only [List.map_cons, List.map_nil]
      constructor
      · rw [resultVec_zero]
        · exact earlyExit_zero_vec _ (hrem i (by simp))
        · intro v hv pos
          simp at hv
          rw [hv]
          simp [childVisits, lookupChild]
      · exact ih (fun j hj => hrem j (by simp [hj])) p _ _ _ _

theorem dead_first_2000 :
    taFirst turnW deadPlace natSpace 1 2000 (taInit () 1 0) =
      ⟨[GTree.mk () (-1) 500 500 []], [fun _ => 0], 1000⟩ := by
  unfold taFirst taInit
  simp only [List.replicate, runRegion_one, GTree.fresh]
  rw [dead_MCTS]
  simp

theorem dead_noExit_2000 :
    noExitRun turnW deadPlace natSpace 1 2000 1 (2000 / 1000) (taCheckpoints 2000)
      (taFirst turnW deadPlace natSpace 1 2000 (taInit () 1 0)) := by
  rw [dead_first_2000]
  apply dead_noExit
  intro i hi
  apply remainingAt_nonneg
  have : taCheckpoints 2000 = [1, 2] := rfl
  rw [this] at hi
  simp at hi
  rcases hi with rfl | rfl <;> norm_num

/-- C7 counterexample: for `iteration_budget = 2000` and one worker, on a
game where the early-exit test never fires (no legal move anywhere, so all
aggregate counts stay `0`), the root's total visit count after the call is
`2500`, not `2000`: the first pass runs `2000/4 = 500` iterations and the
checkpoint loop runs both checkpoints `1, 2` of `2000/2 = 1000` iterations
each. -/
theorem C7_counterexample :
    noExitRun turnW deadPlace natSpace 1 2000 1 (2000 / 1000) (taCheckpoints 2000)
      (taFirst turnW deadPlace natSpace 1 2000 (taInit () 1 0)) ∧
    ((take_action turnW deadPlace natSpace 1 2000 1 () 0).1.trees).map GTree.totalCnt =
      [2500] ∧
    (2500 : Nat) ≠ 2000 := by
  refine ⟨dead_noExit_2000, ?_, by decide⟩
  unfold take_action
  rw [if_neg (by norm_num)]
  simp only
  rw [checkpointRun_total_map turnW deadPlace natSpace 1 2000 1 (2000 / 1000)
    (taCheckpoints 2000) _ dead_noExit_2000]
  rw [dead_first_2000]
  simp only
  have : taCheckpoints 2000 = [1, 2] := rfl
  rw [this]
  norm_num

/-- C7 amended-claim witness: the schedule theorem applied to the
no-legal-move game with `N = 2000`, `W = 1` (the schedule value is
`500 + 2 * 1000 = 2500`). -/
theorem C7_iteration_schedule_witness :
    ((take_action turnW deadPlace natSpace 1 2000 1 () 0).1.trees).map GTree.totalCnt =
      List.replicate 1 (2000 / 4 + (2000 / 1000 - 2000 / 1000 / 4) * (2000 / (2000 / 1000))) :=
  C7_iteration_schedule turnW deadPlace natSpace 1 2000 1 () 0 (by norm_num)
    dead_noExit_2000

/-! ### Configuration handling (C8) -/

theorem runRegion_totalCnt_map (turn : S → Player) (place : S → Nat → Option S)
    (all_space : R → List Nat × R) (c : ℝ) (n : Nat) (ts : List (GTree S)) (r : R) :
    ((runRegion turn place all_space c n ts r).1).map GTree.totalCnt =
      ts.map (fun t => t.totalCnt + n) := by
  have h := runRegion_total_map turn place all_space c n (fun x => x) ts r
  simpa using h

theorem zero_budget_run (turn : S → Player) (place : S → Nat → Option S)
    (all_space : R → List Nat × R) (c : ℝ) (W : Nat) (s0 : S) (r0 : R) :
    take_action turn place all_space c 0 W s0 r0 = (taInit s0 W r0, none) := by
  unfold take_action
  rw [if_pos rfl]

theorem small_budget_run (turn : S → Player) (place : S → Nat → Option S)
    (all_space : R → List Nat × R) (c : ℝ) (N W : Nat) (s0 : S) (r0 : R)
    (hN : N ≠ 0) (hlt : N < 1000) :
    (take_action turn place all_space c N W s0 r0).2 = none ∧
    ((take_action turn place all_space c N W s0 r0).1.trees).map GTree.totalCnt =
      List.replicate W (N / 4) := by
  have hsplit : N / 1000 = 0 := Nat.div_eq_of_lt hlt
  have hcp : taCheckpoints N = [] := by
    simp [taCheckpoints, hsplit]
  unfold take_action
  rw [if_neg hN]
  simp only [hcp, checkpointRun]
  constructor
  · have hz : resultVec (taFirst turn place all_space c N (taInit s0 W r0)).vecs =
        List.replicate 81 0 := by
      apply resultVec_zero
      intro v hv pos
      simp only [taFirst, taInit] at hv
      rcases List.eq_of_mem_replicate hv with rfl
      rfl
    rw [hz, pickMove_zero]
  · simp only [taFirst, taInit]
    rw [runRegion_totalCnt_map]
    simp [GTree.fresh]

/-- C8 counterexample: with a zero iteration budget `take_action` silently
returns the empty action (no configuration error exists in the code); with
`N = 500` (so `split = N/1000 = 0`) the workers are still launched and run
`N/4 = 125` iterations each before the all-zero aggregate produces the
empty action — nothing is validated before launching workers. -/
theorem C8_counterexample :
    take_action turnW deadPlace natSpace 1 0 1 () 0 = (taInit () 1 0, none) ∧
    (take_action turnW deadPlace natSpace 1 500 1 () 0).2 = none ∧
    ((take_action turnW deadPlace natSpace 1 500 1 () 0).1.trees).map GTree.totalCnt =
      [125] :=
  ⟨zero_budget_run turnW deadPlace natSpace 1 1 () 0,
   (small_budget_run turnW deadPlace natSpace 1 500 1 () 0 (by norm_num) (by norm_num)).1,
   (small_budget_run turnW deadPlace natSpace 1 500 1 () 0 (by norm_num) (by norm_num)).2⟩

/-- C8 amended: `take_action` performs no configuration validation.
`N = 0` skips the search and returns the empty action; `0 < N < 1000`
yields `split = 0`, the workers are nevertheless launched for `N/4`
iterations each, the checkpoint loop body (and with it the division
`N/split`) is never executed, the aggregate stays all-zero and the empty
action is returned.  No configuration error is raised in either case. -/
theorem C8_no_validation (turn : S → Player) (place : S → Nat → Option S)
    (all_space : R → List Nat × R) (c : ℝ) (N W : Nat) (s0 : S) (r0 : R) :
    (N = 0 → take_action turn place all_space c N W s0 r0 = (taInit s0 W r0, none)) ∧
    (N ≠ 0 → N < 1000 →
      (take_action turn place all_space c N W s0 r0).2 = none ∧
      ((take_action turn place all_space c N W s0 r0).1.trees).map GTree.totalCnt =
        List.replicate W (N / 4)) := by
  constructor
  · intro h
    subst h
    exact zero_budget_run turn place all_space c W s0 r0
  · intro hN hlt
    exact small_budget_run turn place all_space c N W s0 r0 hN hlt

/-- C8 amended-claim witness: the theorem applied at `N = 0` and at
`N = 500` with one worker on the no-legal-move game. -/
theorem C8_no_validation_witness :
    take_action turnW deadPlace natSpace 1 0 1 () 0 = (taInit () 1 0, none) ∧
    ((take_action turnW deadPlace natSpace 1 500 1 () 0).2 = none ∧
      ((take_action turnW deadPlace natSpace 1 500 1 () 0).1.trees).map GTree.totalCnt =
        List.replicate 1 (500 / 4)) :=
  ⟨(C8_no_validation turnW deadPlace natSpace 1 0 1 () 0).1 rfl,
   (C8_no_validation turnW deadPlace natSpace 1 500 1 () 0).2 (by norm_num) (by norm_num)⟩

/-! ### Legality of published visit counts (C9) -/

/-- All child keys of the node are legal placements from its snapshot. -/
def KeysLegal (place : S → Nat → Option S) (t : GTree S) : Prop :=
  ∀ k ∈ t.children.map Prod.fst, (place t.state k).isSome = true

theorem back_propagate_keys (turn : S → Player) (winner : Player)
    (ks : List Nat) (t : GTree S) :
    (back_propagate turn winner ks t).children.map Prod.fst =
      t.children.map Prod.fst := by
  cases ks <;> simp [back_propagate, updChild_keys]

theorem expandAlong_keys (place : S → Nat → Option S) :
    ∀ (ks order : List Nat) (t : GTree S) (k : Nat),
      k ∈ (expandAlong place t ks order).1.children.map Prod.fst →
      k ∈ t.children.map Prod.fst ∨ (place t.state k).isSome = true := by
  intro ks order t k
  cases ks with
  | nil =>
      rw [expandAlong]
      cases hscan : expandScan place t.state t.children order with
      | none =>
          simp only [expand_from_leaf, hscan]
          exact Or.inl
      | some ps =>
          obtain ⟨p, s'⟩ := ps
          obtain ⟨hpl, _⟩ := expandScan_spec place t.state t.children order p s' hscan
          simp only [expand_from_leaf, hscan, GTree.children_mk, List.map_append]
          intro h
          rcases List.mem_append.mp h with h | h
          · exact Or.inl h
          · simp at h
            subst h
            exact Or.inr (by simp [hpl])
  | cons k' rest =>
      rw [expandAlong]
      cases hlk : lookupChild k' t.children with
      | none => exact Or.inl
      | some ch =>
          simp only [GTree.children_mk, updChild_keys]
          exact Or.inl

theorem mcts_cycle_keysLegal (turn : S → Player) (place : S → Nat → Option S)
    (all_space : R → List Nat × R) (c : ℝ) (t : GTree S) (r : R)
    (h : KeysLegal place t) :
    KeysLegal place (mcts_cycle turn place all_space c t r).1 := by
  intro k hk
  rw [(mcts_cycle_root turn place all_space c t r).2.1]
  simp only [mcts_cycle] at hk
  rw [back_propagate_keys] at hk
  rcases expandAlong_keys place _ _ t k hk with h' | h'
  · exact h k h'
  · exact h'

theorem MCTS_keysLegal (turn : S → Player) (place : S → Nat → Option S)
    (all_space : R → List Nat × R) (c : ℝ) :
    ∀ (n : Nat) (t : GTree S) (r : R), KeysLegal place t →
      KeysLegal place (MCTS turn place all_space c n t r).1 := by
  intro n
  induction n with
  | zero => intro t r h; simpa [MCTS] using h
  | succ n ih =>
      intro t r h
      rw [MCTS]
      exact ih _ _ (mcts_cycle_keysLegal turn place all_space c t r h)

theorem runRegion_mem (turn : S → Player) (place : S → Nat → Option S)
    (all_space : R → List Nat × R) (c : ℝ) (n : Nat) :
    ∀ (ts : List (GTree S)) (r : R) (u : GTree S),
      u ∈ (runRegion turn place all_space c n ts r).1 →
      ∃ t ∈ ts, ∃ r', u = (MCTS turn place all_space c n t r').1 := by
  intro ts
  induction ts with
  | nil => intro r u h; simp [runRegion] at h
  | cons t ts ih =>
      intro r u h
      rw [runRegion] at h
      simp only [List.mem_cons] at h
      rcases h with h | h
      · exact ⟨t, by simp, r, h⟩
      · obtain ⟨t0, ht0, r', hu⟩ := ih _ u h
        exact ⟨t0, by simp [ht0], r', hu⟩

theorem runRegion_preserve (turn : S → Player) (place : S → Nat → Option S)
    (all_space : R → List Nat × R) (c : ℝ) (n : Nat) (s0 : S)
    (ts : List (GTree S)) (r : R)
    (h : ∀ t ∈ ts, t.state = s0 ∧ KeysLegal place t) :
    ∀ u ∈ (runRegion turn place all_space c n ts r).1,
      u.state = s0 ∧ KeysLegal place u := by
  intro u hu
  obtain ⟨t, ht, r', rfl⟩ := runRegion_mem turn place all_space c n ts r u hu
  obtain ⟨hst, hkeys⟩ := h t ht
  constructor
  · rw [(MCTS_root turn place all_space c n t r').2.1, hst]
  · exact MCTS_keysLegal turn place all_space c n t r' hkeys

theorem childVisits_pos {t : GTree S} {pos : Nat} (h : 0 < childVisits t pos) :
    pos ∈ t.children.map Prod.fst := by
  unfold childVisits at h
  cases hlk : lookupChild pos t.children with
  | none => rw [hlk] at h; simp at h
  | some ch => exact List.mem_map.mpr ⟨(pos, ch), lookupChild_mem hlk, rfl⟩

theorem checkpointRun_OK (turn : S → Player) (place : S → Nat → Option S)
    (all_space : R → List Nat × R) (c : ℝ) (N W split : Nat) (s0 : S) :
    ∀ (cps : List Nat) (st : TAState S R),
      (∀ t ∈ st.trees, t.state = s0 ∧ KeysLegal place t) →
      (∀ v ∈ st.vecs, ∀ pos, 0 < v pos → (place s0 pos).isSome = true) →
      (∀ t ∈ (checkpointRun turn place all_space c N W split cps st).trees,
        t.state = s0 ∧ KeysLegal place t) ∧
      (∀ v ∈ (checkpointRun turn place all_space c N W split cps st).vecs,
        ∀ pos, 0 < v pos → (place s0 pos).isSome = true) := by
  intro cps
  induction cps with
  | nil =>
      intro st h1 h2
      simpa [checkpointRun] using ⟨h1, h2⟩
  | cons i is ih =>
      intro st h1 h2
      have htrees : ∀ u ∈ (runRegion turn place all_space c (N / split)
          st.trees st.rng).1, u.state = s0 ∧ KeysLegal place u :=
        runRegion_preserve turn place all_space c (N / split) s0 st.trees st.rng h1
      have hvecs : ∀ v ∈ ((runRegion turn place all_space c (N / split)
          st.trees st.rng).1).map childVisits,
          ∀ pos, 0 < v pos → (place s0 pos).isSome = true := by
        intro v hv pos hpos
        obtain ⟨u, hu, rfl⟩ := List.mem_map.mp hv
        obtain ⟨hst, hkeys⟩ := htrees u hu
        have := hkeys pos (childVisits_pos hpos)
        rwa [hst] at this
      simp only [checkpointRun]
      by_cases hE : earlyExit
          (resultVec (((runRegion turn place all_space c (N / split)
            st.trees st.rng).1).map childVisits))
          (remainingAt N W split i) = true
      · rw [if_pos hE]
        exact ⟨htrees, hvecs⟩
      · rw [if_neg hE]
        exact ih _ htrees hvecs

theorem maxElemAux_mem : ∀ (l : List (Nat × Int)) (b : Nat × Int),
    maxElemAux b l = b ∨ maxElemAux b l ∈ l := by
  intro l
  induction l with
  | nil => intro b; left; rfl
  | cons iv rest ih =>
      intro b
      simp only [maxElemAux]
      rcases ih (if iv.2 > b.2 then iv else b) with h | h
      · rw [h]
        by_cases hc : iv.2 > b.2
        · right
          simp [hc]
        · left
          simp [hc]
      · right
        exact List.mem_cons_of_mem _ h

theorem pickMove_some {l : List Int} {i : Nat} (h : pickMove l = some i) :
    ∃ v : Int, l[i]? = some v ∧ v ≠ 0 := by
  cases l with
  | nil => simp [pickMove] at h
  | cons x rest =>
      simp only [pickMove] at h
      by_cases hz : (maxElemAux (0, x) (x :: rest).enum).2 = 0
      · simp [hz] at h
      · simp [hz] at h
        subst h
        rcases maxElemAux_mem ((x :: rest).enum) (0, x) with hm | hm
        · rw [hm] at hz ⊢
          exact ⟨x, by simp, hz⟩
        · exact ⟨_, List.mem_enum_iff_getElem?.mp hm, hz⟩

theorem aggregateAt_pos {vecs : List (Nat → Nat)} {pos : Nat}
    (h : 0 < aggregateAt vecs pos) : ∃ v ∈ vecs, 0 < v pos := by
  by_contra hc
  push_neg at hc
  have hz : aggregateAt vecs pos = 0 := by
    apply List.sum_eq_zero
    intro x hx
    obtain ⟨v, hv, rfl⟩ := List.mem_map.mp hx
    have := hc v hv
    omega
  omega

theorem resultVec_of_aggregate_zero (vecs : List (Nat → Nat))
    (h : ∀ pos, aggregateAt vecs pos = 0) :
    resultVec vecs = List.replicate 81 0 := by
  unfold resultVec
  rw [List.map_congr_left (fun pos _ => by rw [h pos])]
  simp

theorem resultVec_getElem {vecs : List (Nat → Nat)} {i : Nat} {v : Int}
    (h : (resultVec vecs)[i]? = some v) :
    i < 81 ∧ v = ((aggregateAt vecs i : Nat) : Int) := by
  have hi : i < 81 := by
    by_contra hge
    rw [List.getElem?_eq_none (by simp [resultVec]; omega)] at h
    simp at h
  refine ⟨hi, ?_⟩
  have heq : (resultVec vecs)[i]? = some ((aggregateAt vecs i : Nat) : Int) := by
    unfold resultVec
    rw [List.getElem?_map, List.getElem?_range hi]
    rfl
  rw [heq] at h
  exact (Option.some.inj h).symm

/-- C9: a childless root makes `select_action` return `-1`; an all-zero
aggregate visit vector (in particular a root with no legal move) makes
`take_action` return the empty action; and whenever `take_action` does
return a position, that position is a legal placement on the root board —
never a crash, never an illegal position. -/
theorem C9_no_move_handling (turn : S → Player) (place : S → Nat → Option S)
    (all_space : R → List Nat × R) (c : ℝ) (N W : Nat) (s0 : S) (r0 : R) :
    (∀ t : GTree S, t.children = [] → select_action t = -1) ∧
    ((∀ pos, aggregateAt (take_action turn place all_space c N W s0 r0).1.vecs pos = 0) →
      (take_action turn place all_space c N W s0 r0).2 = none) ∧
    (∀ pos, (take_action turn place all_space c N W s0 r0).2 = some pos →
      (place s0 pos).isSome = true) := by
  refine ⟨?_, ?_, ?_⟩
  · intro t h
    simp [select_action, h]
  · intro h0
    by_cases hN : N = 0
    · subst hN
      rw [zero_budget_run]
    · unfold take_action at h0 ⊢
      rw [if_neg hN] at h0 ⊢
      simp only at h0 ⊢
      rw [resultVec_of_aggregate_zero _ h0, pickMove_zero]
  · intro pos h
    by_cases hN : N = 0
    · subst hN
      rw [zero_budget_run] at h
      simp at h
    · unfold take_action at h
      rw [if_neg hN] at h
      simp only at h
      obtain ⟨v, hv, hvne⟩ := pickMove_some h
      obtain ⟨hlt, rfl⟩ := resultVec_getElem hv
      have hpos : 0 < aggregateAt (checkpointRun turn place all_space c N W (N / 1000)
          (taCheckpoints N) (taFirst turn place all_space c N (taInit s0 W r0))).vecs pos := by
        have : aggregateAt (checkpointRun turn place all_space c N W (N / 1000)
            (taCheckpoints N) (taFirst turn place all_space c N (taInit s0 W r0))).vecs pos ≠ 0 := by
          intro hzero
          exact hvne (by rw [hzero]; rfl)
        omega
      obtain ⟨v', hv', hvpos⟩ := aggregateAt_pos hpos
      have hTrees : ∀ t ∈ (taFirst turn place all_space c N (taInit s0 W r0)).trees,
          t.state = s0 ∧ KeysLegal place t := by
        apply runRegion_preserve
        intro t ht
        rcases List.eq_of_mem_replicate ht with rfl
        exact ⟨rfl, by simp [KeysLegal, GTree.fresh]⟩
      have hVecs : ∀ v ∈ (taFirst turn place all_space c N (taInit s0 W r0)).vecs,
          ∀ p, 0 < v p → (place s0 p).isSome = true := by
        intro v hv p hp
        simp only [taFirst, taInit] at hv
        rcases List.eq_of_mem_replicate hv with rfl
        simp at hp
      exact (checkpointRun_OK turn place all_space c N W (N / 1000) s0
        (taCheckpoints N) _ hTrees hVecs).2 v' hv' pos hvpos

/-! ### A one-move game fixture (used to exercise a successful decision) -/

/-- White always to move (one-move game fixture). -/
def oneTurn : Bool → Player := fun _ => Player.white

/-- From state `true` exactly position `0` is legal (reaching the dead
state `false`); from `false` nothing is legal. -/
def onePlace : Bool → Nat → Option Bool :=
  fun s p => if s = true ∧ p = 0 then some false else none

theorem one_simulate (order : List Nat) :
    simulate_winner oneTurn onePlace false order = Player.black := by
  unfold simulate_winner
  rw [rollout_dead onePlace false (fun _ => rfl) order.length order 0 (by omega) (by omega)]
  rfl

theorem one_cycle_fresh (c : ℝ) (p w : Int) (n : Nat) (r : Nat) :
    mcts_cycle oneTurn onePlace natSpace c (GTree.mk true p w n []) r =
      (GTree.mk true p (w + 1) (n + 1) [(0, GTree.mk false 0 1 1 [])], r + 2) := by
  have hleaf : is_leaf onePlace (GTree.mk true p w n []) = true := by
    have hc : countLegal onePlace true = 1 := by decide
    simp [is_leaf, hc]
  have hsel : select_root_to_leaf onePlace c (GTree.mk true p w n []) = [] := by
    rw [select_root_to_leaf]
    simp [hleaf]
  have hscan : expandScan onePlace true [] (List.range 81) = some (0, false) := by decide
  have hexp : expandAlong onePlace (GTree.mk true p w n []) [] (List.range 81) =
      (GTree.mk true p w n [(0, GTree.fresh false 0)], [0]) := by
    rw [expandAlong]
    simp [expand_from_leaf, hscan]
  simp only [mcts_cycle, hsel, natSpace, hexp]
  rw [show stateAtD (GTree.mk true p w n [(0, GTree.fresh false 0)]) [0] = false by
    simp [stateAtD, followPath, lookupChild, GTree.fresh]]
  rw [one_simulate]
  simp [back_propagate, updChild, GTree.fresh, oneTurn, Player.opp]

theorem one_cycle_full (c : ℝ) (p w w2 : Int) (n n2 : Nat) (r : Nat) :
    mcts_cycle oneTurn onePlace natSpace c
      (GTree.mk true p w n [(0, GTree.mk false 0 w2 n2 [])]) r =
      (GTree.mk true p (w + 1) (n + 1) [(0, GTree.mk false 0 (w2 + 1) (n2 + 1) [])],
        r + 2) := by
  have hleaf : is_leaf onePlace (GTree.mk true p w n [(0, GTree.mk false 0 w2 n2 [])]) =
      false := by
    have hc : countLegal onePlace true = 1 := by decide
    simp [is_leaf, hc]
  have hleaf2 : is_leaf onePlace (GTree.mk false 0 w2 n2 []) = true := by
    have hc : countLegal onePlace false = 0 := by decide
    simp [is_leaf, hc]
  have hsel2 : select_root_to_leaf onePlace c (GTree.mk false 0 w2 n2 []) = [] := by
    rw [select_root_to_leaf]
    simp [hleaf2]
  have hsel : select_root_to_leaf onePlace c
      (GTree.mk true p w n [(0, GTree.mk false 0 w2 n2 [])]) = [0] := by
    rw [select_root_to_leaf]
    simp only [hleaf, Bool.false_eq_true, if_false]
    split
    · rename_i heq
      simp [bestChild] at heq
    · rename_i kc heq
      simp only [GTree.children_mk, GTree.totalCnt_mk, bestChild, bestChildAux] at heq
      injection heq with heq
      subst heq
      simp [hsel2]
  have hscan : ∀ o : List Nat, expandScan onePlace false [] o = none := by
    intro o
    induction o with
    | nil => rfl
    | cons q rest ih => rw [expandScan]; simpa [onePlace] using ih
  have hinner : expandAlong onePlace (GTree.mk false 0 w2 n2 []) [] (List.range 81) =
      (GTree.mk false 0 w2 n2 [], []) := by
    rw [expandAlong]
    simp [expand_from_leaf, hscan]
  have hexp : expandAlong onePlace
      (GTree.mk true p w n [(0, GTree.mk false 0 w2 n2 [])]) [0] (List.range 81) =
      (GTree.mk true p w n [(0, GTree.mk false 0 w2 n2 [])], [0]) := by
    rw [expandAlong]
    simp [lookupChild, hinner, updChild]
  simp only [mcts_cycle, hsel, natSpace, hexp]
  rw [show stateAtD (GTree.mk true p w n [(0, GTree.mk false 0 w2 n2 [])]) [0] = false by
    simp [stateAtD, followPath, lookupChild]]
  rw [one_simulate]
  simp [back_propagate, updChild, oneTurn, Player.opp]

theorem one_MCTS_full (c : ℝ) (p : Int) :
    ∀ (k : Nat) (w w2 : Int) (n n2 : Nat) (r : Nat),
      MCTS oneTurn onePlace natSpace c k
        (GTree.mk true p w n [(0, GTree.mk false 0 w2 n2 [])]) r =
        (GTree.mk true p (w + (k : Int)) (n + k)
          [(0, GTree.mk false 0 (w2 + (k : Int)) (n2 + k) [])], r + 2 * k) := by
  intro k
  induction k with
  | zero => intro w w2 n n2 r; simp [MCTS]
  | succ k ih =>
      intro w w2 n n2 r
      rw [MCTS]
      simp only [one_cycle_full]
      rw [ih]
      have e1 : w + 1 + (k : Int) = w + ((k + 1 : Nat) : Int) := by push_cast; ring
      have e2 : w2 + 1 + (k : Int) = w2 + ((k + 1 : Nat) : Int) := by push_cast; ring
      have e3 : n + 1 + k = n + (k + 1) := by omega
      have e4 : n2 + 1 + k = n2 + (k + 1) := by omega
      have e5 : r + 2 + 2 * k = r + 2 * (k + 1) := by omega
      rw [e1, e2, e3, e4, e5]

theorem one_MCTS (c : ℝ) (k : Nat) (r : Nat) :
    MCTS oneTurn onePlace natSpace c (k + 1) (GTree.fresh true (-1)) r =
      (GTree.mk true (-1) (1 + (k : Int)) (1 + k)
        [(0, GTree.mk false 0 (1 + (k : Int)) (1 + k) [])], r + 2 * (k + 1)) := by
  rw [MCTS]
  simp only [GTree.fresh, one_cycle_fresh]
  rw [one_MCTS_full]
  have e5 : r + 2 + 2 * k = r + 2 * (k + 1) := by omega
  norm_num [e5]

/-- The worker tree after `250 + 1000` iterations of the one-move game:
all visits flow through the single child at position `0`. -/
def T1250 : GTree Bool :=
  GTree.mk true (-1) 1250 1250 [(0, GTree.mk false 0 1250 1250 [])]

theorem one_first_1000 :
    taFirst oneTurn onePlace natSpace 1 1000 (taInit true 1 0) =
      ⟨[GTree.mk true (-1) 250 250 [(0, GTree.mk false 0 250 250 [])]],
        [fun _ => 0], 500⟩ := by
  unfold taFirst taInit
  simp only [List.replicate, runRegion_one]
  rw [show (1000 : Nat) / 4 = 249 + 1 from rfl]
  rw [one_MCTS]
  norm_num

theorem one_checkpoint :
    checkpointRun oneTurn onePlace natSpace 1 1000 1 1 [1]
      ⟨[GTree.mk true (-1) 250 250 [(0, GTree.mk false 0 250 250 [])]],
        [fun _ => 0], 500⟩ =
      ⟨[T1250], [childVisits T1250], 2500⟩ := by
  simp only [checkpointRun, runRegion_one]
  rw [show (1000 : Nat) / 1 = 1000 from rfl]
  rw [one_MCTS_full]
  norm_num [T1250]

theorem one_resultVec :
    resultVec [childVisits T1250] = (1250 : Int) :: List.replicate 80 0 := by decide

theorem one_take_action :
    (take_action oneTurn onePlace natSpace 1 1000 1 true 0).2 = some 0 := by
  unfold take_action
  rw [if_neg (by norm_num)]
  simp only [show (1000 : Nat) / 1000 = 1 from rfl,
    show taCheckpoints 1000 = [1] from rfl, one_first_1000, one_checkpoint]
  rw [one_resultVec]
  decide

theorem small_budget_vecs (turn : S → Player) (place : S → Nat → Option S)
    (all_space : R → List Nat × R) (c : ℝ) (N W : Nat) (s0 : S) (r0 : R)
    (hN : N ≠ 0) (hlt : N < 1000) :
    (take_action turn place all_space c N W s0 r0).1.vecs =
      List.replicate W (fun _ => 0) := by
  have hcp : taCheckpoints N = [] := by
    simp [taCheckpoints, Nat.div_eq_of_lt hlt]
  unfold take_action
  rw [if_neg hN]
  simp only [hcp, checkpointRun, taFirst, taInit]

/-- C9 witness: the theorem applied (a) to a childless node, (b) to a run
on the no-legal-move game (all-zero aggregate, `N = 500`, one worker), and
(c) to a run on the one-move game that returns position `0`, which is
indeed legal on the root board. -/
theorem C9_no_move_handling_witness :
    select_action (GTree.fresh () (-1)) = -1 ∧
    (take_action turnW deadPlace natSpace 1 500 1 () 0).2 = none ∧
    (onePlace true 0).isSome = true := by
  refine ⟨(C9_no_move_handling turnW deadPlace natSpace 1 500 1 () 0).1 _ rfl,
    (C9_no_move_handling turnW deadPlace natSpace 1 500 1 () 0).2.1 ?_,
    (C9_no_move_handling oneTurn onePlace natSpace 1 1000 1 true 0).2.2 0
      one_take_action⟩
  intro pos
  rw [small_budget_vecs turnW deadPlace natSpace 1 500 1 () 0 (by norm_num) (by norm_num)]
  apply aggregateAt_zero
  intro v hv p
  rcases List.eq_of_mem_replicate hv with rfl
  rfl

/-! ### Worker ownership and the shared engine (C10) -/

/-- C10 amended: during a sequentialised parallel region every worker's
final tree is computed exclusively from that worker's own root tree (no
other worker's tree is read or written), but the single random engine is
threaded from one worker to the next: worker `k` starts from the engine
state recorded in `workerEntryRngs`, which is the state the previous
worker left behind — the engine is shared, not independently seeded. -/
theorem C10_worker_ownership (turn : S → Player) (place : S → Nat → Option S)
    (all_space : R → List Nat × R) (c : ℝ) (n : Nat) :
    ∀ (ts : List (GTree S)) (r : R) (k : Nat) (t : GTree S),
      ts[k]? = some t →
      ∃ rk, (workerEntryRngs turn place all_space c n ts r)[k]? = some rk ∧
        ((runRegion turn place all_space c n ts r).1)[k]? =
          some (MCTS turn place all_space c n t rk).1 ∧
        (k = 0 → rk = r) := by
  intro ts
  induction ts with
  | nil => intro r k t h; simp at h
  | cons t0 ts ih =>
      intro r k t h
      cases k with
      | zero =>
          simp at h
          subst h
          exact ⟨r, by simp [workerEntryRngs], by simp [runRegion], fun _ => rfl⟩
      | succ k =>
          simp at h
          obtain ⟨rk, h1, h2, _⟩ :=
            ih (MCTS turn place all_space c n t0 r).2 k t h
          refine ⟨rk, ?_, ?_, by omega⟩
          · simpa [workerEntryRngs] using h1
          · simpa [runRegion] using h2

/-- C10 counterexample: in the first parallel pass of `take_action` with
two workers (`N = 1000`, so `N/4 = 250` iterations each), the second
worker's search starts from engine state `500` — the state left behind by
the first worker's `2 × 250` draws on the same engine — not from the fresh
seed `0`: the random source is shared across the worker boundary, not
independently seeded. -/
theorem C10_counterexample :
    workerEntryRngs turnW deadPlace natSpace 1 (1000 / 4)
      (taInit () 2 0).trees (taInit () 2 0).rng = [0, 500] ∧
    (500 : Nat) ≠ 0 := by
  constructor
  · simp only [taInit, List.replicate, workerEntryRngs, GTree.fresh]
    rw [show (1000 : Nat) / 4 = 250 from rfl, dead_MCTS]
  · decide

/-- C10 amended-claim witness: the ownership theorem applied to the
two-worker first pass of the counterexample; the second worker's tree is
the MCTS result of its own root under the engine state `500` inherited
from the first worker. -/
theorem C10_worker_ownership_witness :
    ∃ rk, (workerEntryRngs turnW deadPlace natSpace 1 (1000 / 4)
        [GTree.fresh () (-1), GTree.fresh () (-1)] 0)[1]? = some rk ∧
      ((runRegion turnW deadPlace natSpace 1 (1000 / 4)
        [GTree.fresh () (-1), GTree.fresh () (-1)] 0).1)[1]? =
        some (MCTS turnW deadPlace natSpace 1 (1000 / 4) (GTree.fresh () (-1)) rk).1 ∧
      (1 = 0 → rk = 0) :=
  C10_worker_ownership turnW deadPlace natSpace 1 (1000 / 4)
    [GTree.fresh () (-1), GTree.fresh () (-1)] 0 1 (GTree.fresh () (-1)) rfl

end MCTSAgent
